import Mathlib

/-!
# Bengali phonetic keyboard: transliteration engine and input session

A shallow embedding of `keymap.go` (the pattern table built by `NewKeyMap`) and of the
conversion and session logic of `main.go` (`ConvertText`, `endsWithConsonant`,
`isBengaliConsonant`, `processCharacter`, `isValidInputChar`, `toggleKeyboard`, `vkToChar`,
`keyboardHookProc`), followed by theorems about them.

Modelling conventions.
* A Go `string` holding well-formed UTF-8 is represented by its sequence of code points, that is
  by the slice `[]rune(s)`; a `rune` is a `Char`. For such a string `len(s) > 0` holds exactly
  when the sequence is non-empty, and `len([]rune(s))` is the length of the sequence.
* A Go `map[string]V` is an association list with pairwise distinct keys; `m[k] = v` is
  `GoMap.set`, the two-valued lookup `v, ok := m[k]` is `GoMap.get?`.
* `for k, v := range m` visits the entries of `m` in an order the language leaves open and that
  may change from one loop to the next. The converter therefore takes an enumeration schedule
  `order`: `order i` is the order in which the table is visited by the inner loop that runs at
  scan position `i`. Every schedule made of permutations of the table is a possible run.
* The `for i < len(chars)` loop is run with a step budget; `none` stands for a run that does not
  finish within the budget. `ConvertText` starts with budget `len(chars)`.
* The keystrokes injected through `SendInput` are recorded as the list of calls made to
  `sendBackspace`, `sendUnicodeText` and `sendCharacter`.
* A slice `s[low:high]` is `(s.drop low).take (high - low)` and an index `s[i]` carries a proof
  of `i < len(s)`. To state that the converter raises no run-time panic, `goSlice` and
  `goIndex` give the checked operations, `none` being the panic, and the definitions named
  `...Checked` repeat `ConvertText` and `endsWithConsonant` with them.
-/

namespace Avgo

/-- A Go string (well-formed UTF-8) as its code point sequence. -/
abbrev GoString := List Char

/-- A Go map keyed by strings, as an association list with distinct keys. -/
abbrev GoMap (ν : Type) := List (GoString × ν)

/-- Map assignment `m[k] = v`: overwrite the entry of `k` if there is one, else add it. -/
def GoMap.set {ν : Type} : GoMap ν → GoString → ν → GoMap ν
  | [], k, v => [(k, v)]
  | (k0, v0) :: rest, k, v =>
    if k0 = k then (k, v) :: rest else (k0, v0) :: GoMap.set rest k v

/-- Map lookup `v, ok := m[k]`. -/
def GoMap.get? {ν : Type} : GoMap ν → GoString → Option ν
  | [], _ => none
  | (k0, v0) :: rest, k => if k0 = k then some v0 else GoMap.get? rest k

/-- Go `type BengaliChar struct { Bengali string; IsVowel bool }`. -/
structure BengaliChar where
  Bengali : GoString
  IsVowel : Bool
deriving DecidableEq

/-- Go `type KeyMap struct { Patterns map[string]BengaliChar; VowelDiacritics map[string]string }`. -/
structure KeyMap where
  Patterns : GoMap BengaliChar
  VowelDiacritics : GoMap GoString

/-- The assignments `patterns[k] = BengaliChar{Bengali: b, IsVowel: v}` of `NewKeyMap`,
in source order, as triples `(k, b, v)`. -/
def patternAssignments : List (String × String × Bool) := [
    -- Independent vowels
    ("o", "অ", true), ("a", "আ", true), ("i", "ই", true), ("I", "ঈ", true),
    ("u", "উ", true), ("U", "ঊ", true), ("rri", "ঋ", true), ("e", "এ", true),
    ("oi", "ঐ", true), ("O", "ও", true), ("ou", "ঔ", true),
    -- র-ফলা  patterns
    ("phr", "ফ্র", false), ("bhr", "ভ্র", false), ("thr", "থ্র", false), ("dhr", "ধ্র", false),
    ("shr", "শ্র", false), ("chr", "ছ্র", false), ("pr", "প্র", false), ("br", "ব্র", false),
    ("tr", "ত্র", false), ("dr", "দ্র", false), ("kr", "ক্র", false), ("gr", "গ্র", false),
    ("jr", "জ্র", false), ("mr", "ম্র", false), ("nr", "ন্র", false), ("sr", "স্র", false),
    ("hr", "হ্র", false), ("fr", "ফ্র", false), ("vr", "ভ্র", false), ("lr", "ল্র", false),
    ("rr", "র্", false), ("Tr", "ট্র", false), ("Dr", "ড্র", false), ("Nr", "ণ্র", false),
    -- Complex letters
    ("shk", "ষ্ক", false), ("shkr", "ষ্ক্র", false), ("kSh", "ক্ষ", false), ("kkh", "ক্ষ", false),
    ("jY", "জ্ঞ", false), ("gg", "জ্ঞ", false),
    -- Double consonants
    ("kk", "ক্ক", false), ("kT", "ক্ট", false), ("kt", "ক্ত", false), ("kw", "ক্ব", false),
    ("km", "ক্ম", false), ("kl", "ক্ল", false), ("ks", "ক্স", false), ("tt", "ত্ত", false),
    ("tn", "ত্ন", false), ("tw", "ত্ব", false), ("tm", "ত্ম", false), ("dd", "দ্দ", false),
    ("dw", "দ্ব", false), ("dm", "দ্ম", false), ("nn", "ন্ন", false), ("nt", "ন্ত", false),
    ("nd", "ন্দ", false), ("nw", "ন্ব", false), ("nm", "ন্ম", false), ("pp", "প্প", false),
    ("pt", "প্ত", false), ("pl", "প্ল", false), ("bb", "ব্ব", false), ("bd", "ব্দ", false),
    ("bl", "ব্ল", false), ("mm", "ম্ম", false), ("mp", "ম্প", false), ("mb", "ম্ব", false),
    ("ml", "ম্ল", false), ("ll", "ল্ল", false), ("lk", "ল্ক", false), ("lg", "ল্গ", false),
    ("lp", "ল্প", false), ("lw", "ল্ব", false), ("lm", "ল্ম", false), ("sk", "স্ক", false),
    ("st", "স্ত", false), ("sn", "স্ন", false), ("sp", "স্প", false), ("sw", "স্ব", false),
    ("sm", "স্ম", false), ("sl", "স্ল", false),
    -- Consonants
    ("kh", "খ", false), ("gh", "ঘ", false), ("ch", "ছ", false), ("jh", "ঝ", false),
    ("Th", "ঠ", false), ("Dh", "ঢ", false), ("th", "থ", false), ("dh", "ধ", false),
    ("ph", "ফ", false), ("bh", "ভ", false), ("Rh", "ঢ়", false), ("ya", "য়া", false),
    ("Ng", "ঙ", false), ("ng", "ং", false), (".t", "ৎ", false), (".n", "ঁ", false),
    -- Single consonants
    ("k", "ক", false), ("g", "গ", false), ("C", "ছ", false), ("c", "চ", false),
    ("j", "জ", false), ("Y", "ঞ", false), ("T", "ট", false), ("D", "ড", false),
    ("N", "ণ", false), ("t", "ত", false), ("d", "দ", false), ("n", "ন", false),
    ("f", "ফ", false), ("p", "প", false), ("v", "ভ", false), ("b", "ব", false),
    ("m", "ম", false), ("z", "য", false), ("r", "র", false), ("l", "ল", false),
    ("Sh", "ষ", false), ("sh", "ষ", false), ("S", "শ", false), ("s", "স", false),
    ("h", "হ", false), ("R", "ড়", false), ("y", "য়", false), ("yo", "য়", false),
    (":", "ঃ", false), ("H", "ঃ", false),
    -- Numbers and others
    ("0", "০", false), ("1", "১", false), ("2", "২", false), ("3", "৩", false),
    ("4", "৪", false), ("5", "৫", false), ("6", "৬", false), ("7", "৭", false),
    ("8", "৮", false), ("9", "৯", false), (".", "।", false), ("$", "৳", false),
    ("aya", "অ্যা", false) ]

/-- The assignments `vowelDiacritics[k] = d` of `NewKeyMap`, in source order. -/
def diacriticAssignments : List (String × String) := [
    ("o", ""), ("a", "া"), ("i", "ি"), ("I", "ী"),
    ("u", "ু"), ("U", "ূ"), ("rri", "ৃ"), ("e", "ে"),
    ("oi", "ৈ"), ("O", "ো"), ("ou", "ৌ") ]

/-- Go `func NewKeyMap() *KeyMap`: both maps start empty and receive the assignments in turn. -/
def NewKeyMap : KeyMap :=
  { Patterns := patternAssignments.foldl
      (fun patterns a => patterns.set a.1.toList ⟨a.2.1.toList, a.2.2⟩) []
    VowelDiacritics := diacriticAssignments.foldl
      (fun vowelDiacritics a => vowelDiacritics.set a.1.toList a.2.toList) [] }

/-- Go `type BengaliKeyboard struct { keymap *KeyMap }`. -/
structure BengaliKeyboard where
  keymap : KeyMap

/-- Go `func NewBengaliKeyboard() *BengaliKeyboard`. -/
def NewBengaliKeyboard : BengaliKeyboard := { keymap := NewKeyMap }

/-- The package-level `bengaliKeyboard = NewBengaliKeyboard()`. -/
def bengaliKeyboard : BengaliKeyboard := NewBengaliKeyboard

/-- Go `func isBengaliConsonant(ch rune) bool`. -/
def isBengaliConsonant (ch : Char) : Bool :=
  decide ((ch ≥ '\u0995' ∧ ch ≤ '\u09B9') ∨
    ch = '\u09DC' ∨ ch = '\u09DD' ∨
    ch = '\u09DF' ∨
    ch = '\u09CE')

/-- Go `func endsWithConsonant(text string) bool`. -/
def endsWithConsonant (text : GoString) : Bool :=
  if h : text.length = 0 then false
  else
    let runes := text
    let lastChar := runes.get ⟨runes.length - 1, Nat.sub_lt (Nat.pos_of_ne_zero h) Nat.one_pos⟩
    isBengaliConsonant lastChar

/-- The four variables `longestMatch`, `longestBengali`, `longestLen`, `isVowel` of the
inner search of `ConvertText`. -/
structure Longest where
  longestMatch : GoString
  longestBengali : GoString
  longestLen : Nat
  isVowel : Bool
deriving DecidableEq

/-- The values the four variables are given before the inner loop. -/
def Longest.init : Longest :=
  { longestMatch := [], longestBengali := [], longestLen := 0, isVowel := false }

/-- The guard of the inner loop for a pattern: `i+len(patternRunes) <= len(chars)` and
`string(chars[i : i+len(patternRunes)]) == pattern`. -/
def matchesAt (chars : List Char) (i : Nat) (pattern : GoString) : Prop :=
  i + pattern.length ≤ chars.length ∧ (chars.drop i).take pattern.length = pattern

instance (chars : List Char) (i : Nat) (pattern : GoString) :
    Decidable (matchesAt chars i pattern) := by
  unfold matchesAt; infer_instance

/-- One pass through the body of `for pattern, bengaliChar := range bk.keymap.Patterns`. -/
def rangeBody (chars : List Char) (i : Nat) (cur : Longest)
    (entry : GoString × BengaliChar) : Longest :=
  let pattern := entry.1
  let bengaliChar := entry.2
  let patternRunes := pattern
  if i + patternRunes.length ≤ chars.length then
    let slice := (chars.drop i).take patternRunes.length
    if slice = pattern ∧ patternRunes.length > cur.longestLen then
      { longestMatch := pattern
        longestBengali := bengaliChar.Bengali
        longestLen := patternRunes.length
        isVowel := bengaliChar.IsVowel }
    else cur
  else cur

/-- The inner loop of `ConvertText` at scan position `i`, visiting the table in the order
`entries`. -/
def findLongest (entries : GoMap BengaliChar) (chars : List Char) (i : Nat) : Longest :=
  entries.foldl (rangeBody chars i) Longest.init

/-- One iteration of the outer loop of `ConvertText` at a position `i < len(chars)`: the new
position and the new contents of `result`. -/
def loopBody (bk : BengaliKeyboard) (entries : GoMap BengaliChar) (chars : List Char)
    (i : Nat) (h : i < chars.length) (result : GoString) : Nat × GoString :=
  let m := findLongest entries chars i
  if m.longestLen > 0 then
    if m.isVowel then
      let resultStr := result
      if resultStr.length > 0 ∧ endsWithConsonant resultStr = true then
        if m.longestMatch = "o".toList then
          (i + m.longestLen, result)
        else
          match bk.keymap.VowelDiacritics.get? m.longestMatch with
          | some diacritic => (i + m.longestLen, result ++ diacritic)
          | none => (i + m.longestLen, result ++ m.longestBengali)
      else
        (i + m.longestLen, result ++ m.longestBengali)
    else
      (i + m.longestLen, result ++ m.longestBengali)
  else
    (i + 1, result ++ [chars.get ⟨i, h⟩])

/-- The loop `for i < len(chars)` of `ConvertText`, run for at most `fuel` iterations from
position `i` with `result` accumulated so far. -/
def convertLoop (bk : BengaliKeyboard) (order : Nat → GoMap BengaliChar) (chars : List Char) :
    Nat → Nat → GoString → Option GoString
  | 0, i, result => if i < chars.length then none else some result
  | fuel + 1, i, result =>
    if h : i < chars.length then
      let next := loopBody bk (order i) chars i h result
      convertLoop bk order chars fuel next.1 next.2
    else some result

/-- Go `func (bk *BengaliKeyboard) ConvertText(input string) string`. -/
def ConvertText (bk : BengaliKeyboard) (order : Nat → GoMap BengaliChar)
    (input : GoString) : Option GoString :=
  let chars := input
  convertLoop bk order chars chars.length 0 []

/-- A schedule is an enumeration of the table of `bk` when, at every scan position, it lists
exactly the entries of `bk.keymap.Patterns`, in some order. -/
def Enumerates (bk : BengaliKeyboard) (order : Nat → GoMap BengaliChar) : Prop :=
  ∀ i, (order i).Perm bk.keymap.Patterns

/-- The schedule that visits the table in the order of the assignments, at every position. -/
def sourceOrder (bk : BengaliKeyboard) : Nat → GoMap BengaliChar :=
  fun _ => bk.keymap.Patterns

/-- Go `type KeyboardState struct`, without the mutex. -/
structure KeyboardState where
  enabled : Bool
  inputBuffer : GoString
  lastBengaliOutput : GoString
deriving DecidableEq

/-- The package-level `keyboardState` at program start. -/
def keyboardState : KeyboardState :=
  { enabled := false, inputBuffer := [], lastBengaliOutput := [] }

/-- A call made to one of the keystroke injection functions of `main.go`. -/
inductive Sent where
  | sendBackspace : Sent
  | sendUnicodeText (text : GoString) : Sent
  | sendCharacter (ch : Char) : Sent
deriving DecidableEq

/-- Go `func isValidInputChar(ch rune) bool`. -/
def isValidInputChar (ch : Char) : Bool :=
  decide ((ch ≥ 'a' ∧ ch ≤ 'z') ∨ (ch ≥ 'A' ∧ ch ≤ 'Z') ∨
    (ch ≥ '0' ∧ ch ≤ '9') ∨ ch = '.' ∨ ch = ':' ∨ ch = '$' ∨ ch = '_')

/-- The outcome of one call of `processCharacter`: the session state it leaves, the injection
calls it made, in order, and the boolean it returns (`true`: suppress the original key). -/
structure Outcome where
  state : KeyboardState
  sent : List Sent
  suppress : Bool
deriving DecidableEq

/-- Go `func processCharacter(ch rune) bool`, on the session state `st`. -/
def processCharacter (order : Nat → GoMap BengaliChar) (st : KeyboardState) (ch : Char) :
    Option Outcome :=
  if ch = '\x08' then
    if st.inputBuffer.length > 0 then
      let runes := st.inputBuffer
      some ⟨{ st with inputBuffer := runes.take (runes.length - 1) }, [], false⟩
    else
      some ⟨st, [], false⟩
  else if ch = ' ' ∨ ch = '\n' ∨ ch = '\t' then
    if st.inputBuffer.length > 0 then
      let word := st.inputBuffer
      match ConvertText bengaliKeyboard order word with
      | none => none
      | some bengaliWord =>
        let st1 := { st with inputBuffer := [], lastBengaliOutput := [] }
        if bengaliWord.length > 0 ∧ bengaliWord ≠ word then
          some ⟨st1,
            List.replicate word.length Sent.sendBackspace ++
              [Sent.sendUnicodeText bengaliWord, Sent.sendCharacter ch],
            true⟩
        else
          some ⟨{ st1 with inputBuffer := [], lastBengaliOutput := [] }, [], false⟩
    else
      some ⟨{ st with inputBuffer := [], lastBengaliOutput := [] }, [], false⟩
  else if isValidInputChar ch = true then
    some ⟨{ st with inputBuffer := st.inputBuffer ++ [ch] }, [], false⟩
  else
    if st.inputBuffer.length > 0 then
      some ⟨{ st with inputBuffer := [], lastBengaliOutput := [] }, [], false⟩
    else
      some ⟨st, [], false⟩

/-- Deliver the characters `chs` one after the other to `processCharacter`, starting in state
`st`; the outcomes are collected in order. -/
def feed (order : Nat → GoMap BengaliChar) :
    KeyboardState → List Char → Option (KeyboardState × List Outcome)
  | st, [] => some (st, [])
  | st, ch :: chs =>
    match processCharacter order st ch with
    | none => none
    | some o =>
      match feed order o.state chs with
      | none => none
      | some (st2, os) => some (st2, o :: os)

/-- What a selected table entry leaves in the four variables of the inner search. -/
def Longest.ofEntry (entry : GoString × BengaliChar) : Longest :=
  { longestMatch := entry.1
    longestBengali := entry.2.Bengali
    longestLen := entry.1.length
    isVowel := entry.2.IsVowel }

/-- The table of `NewKeyMap` written as the list of its assignments. -/
def assignedPatterns : GoMap BengaliChar :=
  patternAssignments.map (fun a => (a.1.toList, ⟨a.2.1.toList, a.2.2⟩))

/-- The diacritic map of `NewKeyMap` written as the list of its assignments. -/
def assignedDiacritics : GoMap GoString :=
  diacriticAssignments.map (fun a => (a.1.toList, a.2.toList))

/-- Go constant `WM_KEYDOWN = 0x0100`. -/
def WM_KEYDOWN : Nat := 0x0100

/-- Go constant `TOGGLE_KEY = 0x79`, the F10 key. -/
def TOGGLE_KEY : Nat := 0x79

/-- Go `func toggleKeyboard()`, on the session state `st`. -/
def toggleKeyboard (st : KeyboardState) : KeyboardState :=
  { enabled := !st.enabled, inputBuffer := [], lastBengaliOutput := [] }

/-- Go `func vkToChar(vkCode uint32) rune`; `shiftPressed` is what `isKeyPressed(VK_SHIFT)`
returns, and the rune `0` is the character of code point 0. -/
def vkToChar (shiftPressed : Bool) (vkCode : Nat) : Char :=
  if vkCode ≥ 0x41 ∧ vkCode ≤ 0x5A then
    if shiftPressed then Char.ofNat (vkCode - 0x41 + 'A'.toNat)
    else Char.ofNat (vkCode - 0x41 + 'a'.toNat)
  else if vkCode ≥ 0x30 ∧ vkCode ≤ 0x39 then Char.ofNat (vkCode - 0x30 + '0'.toNat)
  else if vkCode = 0x08 then '\x08'
  else if vkCode = 0x20 then ' '
  else if vkCode = 0x0D then '\n'
  else if vkCode = 0x09 then '\t'
  else if vkCode = 0xBE then '.'
  else if vkCode = 0xBA then ':'
  else if vkCode = 0xBD then '_'
  else Char.ofNat 0

/-- What `keyboardHookProc` returns: `1`, which swallows the key event, or the result of
`callNextHookEx`, which lets the event through to the application. -/
inductive HookResult where
  | suppressed : HookResult
  | callNextHookEx : HookResult
deriving DecidableEq

/-- The outcome of one call of `keyboardHookProc`: the session state it leaves, the injection
calls it made, in order, and what it returns. -/
structure HookOutcome where
  state : KeyboardState
  sent : List Sent
  result : HookResult
deriving DecidableEq

/-- Go `func keyboardHookProc(code int32, wparam, lparam uintptr) uintptr`, on the session state
`st`. `vkCode` is the field `VkCode` of the structure `lparam` points to; `ctrlPressed` and
`shiftPressed` are what `isKeyPressed` returns for `VK_CONTROL` and `VK_SHIFT`. The tray icon
update is left out. -/
def keyboardHookProc (order : Nat → GoMap BengaliChar) (st : KeyboardState)
    (ctrlPressed shiftPressed : Bool) (code : Int) (wparam vkCode : Nat) :
    Option HookOutcome :=
  if code ≥ 0 then
    if wparam = WM_KEYDOWN ∧ vkCode = TOGGLE_KEY then
      some ⟨toggleKeyboard st, [], HookResult.suppressed⟩
    else if ctrlPressed = true ∧ wparam = WM_KEYDOWN ∧
        vkCode ∈ [0x43, 0x56, 0x41, 0x58, 0x5A, 0x59] then
      some ⟨st, [], HookResult.callNextHookEx⟩
    else
      let enabled := st.enabled
      if enabled = true ∧ wparam = WM_KEYDOWN then
        let ch := vkToChar shiftPressed vkCode
        if ch ≠ Char.ofNat 0 then
          match processCharacter order st ch with
          | none => none
          | some o =>
            if o.suppress = true then some ⟨o.state, o.sent, HookResult.suppressed⟩
            else some ⟨o.state, o.sent, HookResult.callNextHookEx⟩
        else some ⟨st, [], HookResult.callNextHookEx⟩
      else some ⟨st, [], HookResult.callNextHookEx⟩
  else some ⟨st, [], HookResult.callNextHookEx⟩

/-- The session states that a sequence of calls of `toggleKeyboard` and `processCharacter`
can produce from the state at program start. -/
inductive Reachable : KeyboardState → Prop where
  | start : Reachable keyboardState
  | toggle (st : KeyboardState) : Reachable st → Reachable (toggleKeyboard st)
  | process (st : KeyboardState) (order : Nat → GoMap BengaliChar) (ch : Char) (o : Outcome) :
      Reachable st → processCharacter order st ch = some o → Reachable o.state

/-- The session states that a sequence of calls of `toggleKeyboard` (the tray menu command)
and of events handled by `keyboardHookProc` can produce from the state at program start. -/
inductive HookReachable : KeyboardState → Prop where
  | start : HookReachable keyboardState
  | toggle (st : KeyboardState) : HookReachable st → HookReachable (toggleKeyboard st)
  | event (st : KeyboardState) (order : Nat → GoMap BengaliChar)
      (ctrlPressed shiftPressed : Bool) (code : Int) (wparam vkCode : Nat) (o : HookOutcome) :
      HookReachable st →
      keyboardHookProc order st ctrlPressed shiftPressed code wparam vkCode = some o →
      HookReachable o.state

/-- Go slice expression `s[low:high]` with run-time checking: `none` stands for the panic
"slice bounds out of range", raised unless `low ≤ high ≤ len(s)`. -/
def goSlice (s : List Char) (low high : Nat) : Option (List Char) :=
  if low ≤ high ∧ high ≤ s.length then some ((s.drop low).take (high - low)) else none

/-- Go index expression `s[i]` with run-time checking: `none` stands for the panic
"index out of range", raised unless `i < len(s)`. -/
def goIndex (s : List Char) (i : Nat) : Option Char :=
  if h : i < s.length then some (s.get ⟨i, h⟩) else none

/-- Go `func endsWithConsonant(text string) bool` with the index `runes[len(runes)-1]`
checked at run time; `none` is a panic. -/
def endsWithConsonantChecked (text : GoString) : Option Bool :=
  if text.length = 0 then some false
  else
    let runes := text
    match goIndex runes (runes.length - 1) with
    | none => none
    | some lastChar => some (isBengaliConsonant lastChar)

/-- One pass through the body of `for pattern, bengaliChar := range bk.keymap.Patterns` with
the slice `chars[i : i+len(patternRunes)]` checked at run time; `none` is a panic. -/
def rangeBodyChecked (chars : List Char) (i : Nat) (cur : Longest)
    (entry : GoString × BengaliChar) : Option Longest :=
  let pattern := entry.1
  let bengaliChar := entry.2
  let patternRunes := pattern
  if i + patternRunes.length ≤ chars.length then
    match goSlice chars i (i + patternRunes.length) with
    | none => none
    | some slice =>
      if slice = pattern ∧ patternRunes.length > cur.longestLen then
        some { longestMatch := pattern
               longestBengali := bengaliChar.Bengali
               longestLen := patternRunes.length
               isVowel := bengaliChar.IsVowel }
      else some cur
  else some cur

/-- The inner loop of `ConvertText` over the entries still to visit, with checked slices;
a panic in one pass ends the loop. -/
def rangeChecked (chars : List Char) (i : Nat) : GoMap BengaliChar → Longest → Option Longest
  | [], cur => some cur
  | entry :: rest, cur =>
    match rangeBodyChecked chars i cur entry with
    | none => none
    | some next => rangeChecked chars i rest next

/-- The inner loop of `ConvertText` at scan position `i` with checked slices. -/
def findLongestChecked (entries : GoMap BengaliChar) (chars : List Char) (i : Nat) :
    Option Longest :=
  rangeChecked chars i entries Longest.init

/-- One iteration of the outer loop of `ConvertText` with every slice and index checked at
run time: the inner search, the call of `endsWithConsonant` behind `len(resultStr) > 0 &&`,
and `chars[i]`. No bound on `i` is assumed; `none` is a panic. -/
def loopBodyChecked (bk : BengaliKeyboard) (entries : GoMap BengaliChar) (chars : List Char)
    (i : Nat) (result : GoString) : Option (Nat × GoString) :=
  match findLongestChecked entries chars i with
  | none => none
  | some m =>
    if m.longestLen > 0 then
      if m.isVowel then
        let resultStr := result
        match (if resultStr.length > 0 then endsWithConsonantChecked resultStr
          else some false) with
        | none => none
        | some afterConsonant =>
          if afterConsonant = true then
            if m.longestMatch = "o".toList then
              some (i + m.longestLen, result)
            else
              match bk.keymap.VowelDiacritics.get? m.longestMatch with
              | some diacritic => some (i + m.longestLen, result ++ diacritic)
              | none => some (i + m.longestLen, result ++ m.longestBengali)
          else
            some (i + m.longestLen, result ++ m.longestBengali)
      else
        some (i + m.longestLen, result ++ m.longestBengali)
    else
      match goIndex chars i with
      | none => none
      | some ch => some (i + 1, result ++ [ch])

/-- How a run of `ConvertText` ends: it returns a value, it panics on a slice or an index out
of range, or it is still running when the step budget is used up. -/
inductive Run (α : Type) where
  | returned (a : α) : Run α
  | panicked : Run α
  | unfinished : Run α
deriving DecidableEq

/-- The loop `for i < len(chars)` of `ConvertText` with every slice and index checked at run
time, run for at most `fuel` iterations. -/
def convertLoopChecked (bk : BengaliKeyboard) (order : Nat → GoMap BengaliChar)
    (chars : List Char) : Nat → Nat → GoString → Run GoString
  | 0, i, result => if i < chars.length then Run.unfinished else Run.returned result
  | fuel + 1, i, result =>
    if i < chars.length then
      match loopBodyChecked bk (order i) chars i result with
      | none => Run.panicked
      | some next => convertLoopChecked bk order chars fuel next.1 next.2
    else Run.returned result

/-- Go `func (bk *BengaliKeyboard) ConvertText(input string) string` with every slice and
index checked at run time. -/
def ConvertTextChecked (bk : BengaliKeyboard) (order : Nat → GoMap BengaliChar)
    (input : GoString) : Run GoString :=
  let chars := input
  convertLoopChecked bk order chars chars.length 0 []

/-! ## Go maps -/

theorem GoMap.mem_keys_set {ν : Type} (m : GoMap ν) (k : GoString) (v : ν) (x : GoString) :
    x ∈ (m.set k v).map Prod.fst ↔ x ∈ m.map Prod.fst ∨ x = k := by
  induction m with
  | nil => simp [GoMap.set]
  | cons e rest ih =>
    obtain ⟨k0, v0⟩ := e
    unfold GoMap.set
    by_cases hk : k0 = k
    · subst hk
      simp only [if_true, List.map_cons, List.mem_cons]
      tauto
    · simp only [hk, if_false, List.map_cons, List.mem_cons, ih]
      tauto

theorem GoMap.nodup_keys_set {ν : Type} (m : GoMap ν) (k : GoString) (v : ν)
    (h : (m.map Prod.fst).Nodup) : ((m.set k v).map Prod.fst).Nodup := by
  induction m with
  | nil => simp [GoMap.set]
  | cons e rest ih =>
    obtain ⟨k0, v0⟩ := e
    simp only [List.map_cons, List.nodup_cons] at h
    unfold GoMap.set
    by_cases hk : k0 = k
    · subst hk
      simp only [if_true, List.map_cons, List.nodup_cons]
      exact h
    · simp only [hk, if_false, List.map_cons]
      refine List.nodup_cons.2 ⟨?_, ih h.2⟩
      intro hmem
      rcases (GoMap.mem_keys_set rest k v k0).1 hmem with h1 | h1
      · exact h.1 h1
      · exact hk h1

theorem GoMap.nodup_keys_foldl_set {α ν : Type} (f : α → GoString) (g : α → ν)
    (l : List α) : ∀ (m : GoMap ν), (m.map Prod.fst).Nodup →
      ((l.foldl (fun acc a => acc.set (f a) (g a)) m).map Prod.fst).Nodup := by
  induction l with
  | nil => intro m h; exact h
  | cons a t ih =>
    intro m h
    exact ih _ (GoMap.nodup_keys_set m (f a) (g a) h)

theorem GoMap.mem_of_get? {ν : Type} (m : GoMap ν) (k : GoString) (v : ν)
    (h : m.get? k = some v) : (k, v) ∈ m := by
  induction m with
  | nil => simp [GoMap.get?] at h
  | cons e rest ih =>
    obtain ⟨k0, v0⟩ := e
    unfold GoMap.get? at h
    by_cases hk : k0 = k
    · subst hk
      simp only [if_true, Option.some.injEq] at h
      subst h
      exact List.mem_cons_self _ _
    · simp only [hk, if_false] at h
      exact List.mem_cons_of_mem _ (ih h)

theorem GoMap.eq_of_mem_of_mem {ν : Type} (m : GoMap ν) (h : (m.map Prod.fst).Nodup)
    (k : GoString) (v1 v2 : ν) (h1 : (k, v1) ∈ m) (h2 : (k, v2) ∈ m) : v1 = v2 := by
  induction m with
  | nil => simp at h1
  | cons e rest ih =>
    simp only [List.map_cons, List.nodup_cons] at h
    rcases List.mem_cons.1 h1 with h1 | h1 <;> rcases List.mem_cons.1 h2 with h2 | h2
    · rw [← h1] at h2
      exact (Prod.mk.inj h2).2.symm
    · exact absurd (List.mem_map.2 ⟨(k, v2), h2, by rw [← h1]⟩) h.1
    · exact absurd (List.mem_map.2 ⟨(k, v1), h1, by rw [← h2]⟩) h.1
    · exact ih h.2 h1 h2

theorem GoMap.get?_of_mem {ν : Type} (m : GoMap ν) (h : (m.map Prod.fst).Nodup)
    (k : GoString) (v : ν) (hm : (k, v) ∈ m) : m.get? k = some v := by
  induction m with
  | nil => simp at hm
  | cons e rest ih =>
    obtain ⟨k0, v0⟩ := e
    simp only [List.map_cons, List.nodup_cons] at h
    unfold GoMap.get?
    by_cases hk : k0 = k
    · subst hk
      simp only [if_true, Option.some.injEq]
      rcases List.mem_cons.1 hm with h1 | h1
      · exact (Prod.mk.inj h1).2.symm
      · exact absurd (List.mem_map.2 ⟨(k0, v), h1, rfl⟩) h.1
    · simp only [hk, if_false]
      rcases List.mem_cons.1 hm with h1 | h1
      · exact absurd (Prod.mk.inj h1).1.symm hk
      · exact ih h.2 h1

/-! ## The table of `NewKeyMap` -/

theorem NewKeyMap_Patterns_eq : NewKeyMap.Patterns = assignedPatterns := by decide!

theorem NewKeyMap_VowelDiacritics_eq : NewKeyMap.VowelDiacritics = assignedDiacritics := by
  decide!

theorem bengaliKeyboard_eq :
    bengaliKeyboard = ⟨⟨assignedPatterns, assignedDiacritics⟩⟩ := by
  have hk : ∀ a b : KeyMap, a.Patterns = b.Patterns → a.VowelDiacritics = b.VowelDiacritics →
      a = b := by
    intro a b h1 h2
    cases a; cases b
    simp only at h1 h2
    rw [h1, h2]
  unfold bengaliKeyboard NewBengaliKeyboard
  exact congrArg BengaliKeyboard.mk
    (hk _ _ NewKeyMap_Patterns_eq NewKeyMap_VowelDiacritics_eq)

theorem nodup_keys_Patterns : (bengaliKeyboard.keymap.Patterns.map Prod.fst).Nodup := by
  unfold bengaliKeyboard NewBengaliKeyboard NewKeyMap
  dsimp only
  exact GoMap.nodup_keys_foldl_set (fun a : String × String × Bool => a.1.toList)
    (fun a => (⟨a.2.1.toList, a.2.2⟩ : BengaliChar)) patternAssignments [] List.nodup_nil

/-! ## The inner search -/

theorem rangeBody_eq (chars : List Char) (i : Nat) (cur : Longest)
    (e : GoString × BengaliChar) :
    rangeBody chars i cur e =
      if matchesAt chars i e.1 ∧ cur.longestLen < e.1.length then Longest.ofEntry e
      else cur := by
  unfold rangeBody matchesAt Longest.ofEntry
  by_cases h1 : i + e.1.length ≤ chars.length
  · by_cases h2 : (chars.drop i).take e.1.length = e.1
    · by_cases h3 : cur.longestLen < e.1.length
      · simp [h1, h2, h3]
      · simp [h1, h2, h3]
    · simp [h1, h2]
  · simp [h1]

theorem foldl_rangeBody_spec (chars : List Char) (i : Nat) (l : GoMap BengaliChar) :
    ∀ s : Longest,
      (l.foldl (rangeBody chars i) s = s ∨
        ∃ e ∈ l, matchesAt chars i e.1 ∧ s.longestLen < e.1.length ∧
          l.foldl (rangeBody chars i) s = Longest.ofEntry e) ∧
      s.longestLen ≤ (l.foldl (rangeBody chars i) s).longestLen ∧
      ∀ e ∈ l, matchesAt chars i e.1 →
        e.1.length ≤ (l.foldl (rangeBody chars i) s).longestLen := by
  induction l with
  | nil =>
    intro s
    exact ⟨Or.inl rfl, Nat.le_refl _, fun e he => absurd he (List.not_mem_nil e)⟩
  | cons e t ih =>
    intro s
    rw [List.foldl_cons]
    obtain ⟨h1, h2, h3⟩ := ih (rangeBody chars i s e)
    rw [rangeBody_eq] at h1 h2 h3 ⊢
    by_cases hc : matchesAt chars i e.1 ∧ s.longestLen < e.1.length
    · simp only [hc, and_self, if_true] at h1 h2 h3 ⊢
      have hlen : (Longest.ofEntry e).longestLen = e.1.length := rfl
      rw [hlen] at h1 h2
      refine ⟨Or.inr ?_, by omega, ?_⟩
      · rcases h1 with h1 | ⟨e2, he2, hm2, hl2, hr2⟩
        · exact ⟨e, List.mem_cons_self _ _, hc.1, hc.2, h1⟩
        · exact ⟨e2, List.mem_cons_of_mem _ he2, hm2, by omega, hr2⟩
      · intro e2 he2 hm2
        rcases List.mem_cons.1 he2 with h | h
        · rw [h]; exact h2
        · exact h3 e2 h hm2
    · simp only [hc, if_false] at h1 h2 h3 ⊢
      refine ⟨?_, h2, ?_⟩
      · rcases h1 with h1 | ⟨e2, he2, hm2, hl2, hr2⟩
        · exact Or.inl h1
        · exact Or.inr ⟨e2, List.mem_cons_of_mem _ he2, hm2, hl2, hr2⟩
      · intro e2 he2 hm2
        rcases List.mem_cons.1 he2 with h | h
        · rw [h]
          rw [h] at hm2
          have : ¬ s.longestLen < e.1.length := fun hlt => hc ⟨hm2, hlt⟩
          omega
        · exact h3 e2 h hm2

/-- The inner search either leaves the four variables as initialised, and then only empty
patterns match, or holds a non-empty matching entry of greatest length. -/
theorem findLongest_spec (l : GoMap BengaliChar) (chars : List Char) (i : Nat) :
    (findLongest l chars i = Longest.init ∧
        ∀ e ∈ l, matchesAt chars i e.1 → e.1.length = 0) ∨
      ∃ e ∈ l, matchesAt chars i e.1 ∧ 0 < e.1.length ∧
        findLongest l chars i = Longest.ofEntry e ∧
        ∀ e2 ∈ l, matchesAt chars i e2.1 → e2.1.length ≤ e.1.length := by
  obtain ⟨h1, _, h3⟩ := foldl_rangeBody_spec chars i l Longest.init
  unfold findLongest
  rcases h1 with h1 | ⟨e, he, hm, hl, hr⟩
  · left
    refine ⟨h1, ?_⟩
    intro e he hm
    have := h3 e he hm
    rw [h1] at this
    exact Nat.le_zero.1 this
  · right
    refine ⟨e, he, hm, hl, hr, ?_⟩
    intro e2 he2 hm2
    have := h3 e2 he2 hm2
    rw [hr] at this
    exact this

theorem matchesAt_eq_of_length_eq (chars : List Char) (i : Nat) (p q : GoString)
    (hp : matchesAt chars i p) (hq : matchesAt chars i q) (h : p.length = q.length) :
    p = q := by
  rw [← hp.2, ← hq.2, h]

/-- A non-empty matching entry of greatest length is the one the inner search ends with,
whatever the order of the visit. -/
theorem findLongest_eq_of_max (l : GoMap BengaliChar) (hnd : (l.map Prod.fst).Nodup)
    (chars : List Char) (i : Nat) (e : GoString × BengaliChar) (he : e ∈ l)
    (hm : matchesAt chars i e.1) (hpos : 0 < e.1.length)
    (hmax : ∀ e2 ∈ l, matchesAt chars i e2.1 → e2.1.length ≤ e.1.length) :
    findLongest l chars i = Longest.ofEntry e := by
  rcases findLongest_spec l chars i with ⟨_, h0⟩ | ⟨e1, he1, hm1, _, hr1, hmax1⟩
  · have := h0 e he hm
    omega
  · have hlen : e1.1.length = e.1.length :=
      Nat.le_antisymm (hmax e1 he1 hm1) (hmax1 e he hm)
    have hkey : e1.1 = e.1 := matchesAt_eq_of_length_eq chars i _ _ hm1 hm hlen
    have hval : e1.2 = e.2 := by
      apply GoMap.eq_of_mem_of_mem l hnd e.1
      · rw [← hkey]; exact he1
      · exact he
    have : e1 = e := Prod.ext hkey hval
    rw [hr1, this]

theorem findLongest_eq_init (l : GoMap BengaliChar) (chars : List Char) (i : Nat)
    (h0 : ∀ e ∈ l, matchesAt chars i e.1 → e.1.length = 0) :
    findLongest l chars i = Longest.init := by
  rcases findLongest_spec l chars i with ⟨h, _⟩ | ⟨e1, he1, hm1, hpos, _, _⟩
  · exact h
  · have := h0 e1 he1 hm1
    omega

/-- The inner search does not depend on the order in which the map is visited. -/
theorem findLongest_perm (l1 l2 : GoMap BengaliChar) (hnd : (l1.map Prod.fst).Nodup)
    (hp : l2.Perm l1) (chars : List Char) (i : Nat) :
    findLongest l2 chars i = findLongest l1 chars i := by
  have hnd2 : (l2.map Prod.fst).Nodup := ((hp.map Prod.fst).nodup_iff).2 hnd
  rcases findLongest_spec l1 chars i with ⟨h, h0⟩ | ⟨e, he, hm, hpos, hr, hmax⟩
  · rw [h]
    exact findLongest_eq_init l2 chars i (fun e he => h0 e (hp.mem_iff.1 he))
  · rw [hr]
    exact findLongest_eq_of_max l2 hnd2 chars i e (hp.mem_iff.2 he) hm hpos
      (fun e2 he2 => hmax e2 (hp.mem_iff.1 he2))

/-! ## The consonant test -/

theorem endsWithConsonant_nil : endsWithConsonant [] = false := rfl

theorem endsWithConsonant_concat (text : GoString) (c : Char) :
    endsWithConsonant (text ++ [c]) = isBengaliConsonant c := by
  unfold endsWithConsonant
  have hlen : ¬ (text ++ [c]).length = 0 := by simp
  rw [dif_neg hlen]
  simp [List.get_eq_getElem]

theorem endsWithConsonant_of_getLast? (text : GoString) (c : Char)
    (h : text.getLast? = some c) : endsWithConsonant text = isBengaliConsonant c := by
  obtain ⟨ys, rfl⟩ := List.getLast?_eq_some_iff.1 h
  exact endsWithConsonant_concat ys c

/-! ## One iteration of the outer loop -/

theorem loopBody_congr (bk : BengaliKeyboard) (l1 l2 : GoMap BengaliChar) (chars : List Char)
    (i : Nat) (h : i < chars.length) (result : GoString)
    (heq : findLongest l1 chars i = findLongest l2 chars i) :
    loopBody bk l1 chars i h result = loopBody bk l2 chars i h result := by
  unfold loopBody
  rw [heq]

theorem loopBody_of_none (bk : BengaliKeyboard) (l : GoMap BengaliChar) (chars : List Char)
    (i : Nat) (h : i < chars.length) (result : GoString)
    (h0 : (findLongest l chars i).longestLen = 0) :
    loopBody bk l chars i h result = (i + 1, result ++ [chars.get ⟨i, h⟩]) := by
  unfold loopBody
  simp [h0]

theorem loopBody_of_consonant (bk : BengaliKeyboard) (l : GoMap BengaliChar)
    (chars : List Char) (i : Nat) (h : i < chars.length) (result : GoString)
    (hpos : 0 < (findLongest l chars i).longestLen)
    (hv : (findLongest l chars i).isVowel = false) :
    loopBody bk l chars i h result =
      (i + (findLongest l chars i).longestLen,
        result ++ (findLongest l chars i).longestBengali) := by
  unfold loopBody
  simp [hpos, hv]

theorem loopBody_of_vowel_independent (bk : BengaliKeyboard) (l : GoMap BengaliChar)
    (chars : List Char) (i : Nat) (h : i < chars.length) (result : GoString)
    (hpos : 0 < (findLongest l chars i).longestLen)
    (hv : (findLongest l chars i).isVowel = true)
    (hr : ¬ (result.length > 0 ∧ endsWithConsonant result = true)) :
    loopBody bk l chars i h result =
      (i + (findLongest l chars i).longestLen,
        result ++ (findLongest l chars i).longestBengali) := by
  unfold loopBody
  simp only [hpos, hv, if_true, hr, if_false]

theorem loopBody_of_vowel_inherent (bk : BengaliKeyboard) (l : GoMap BengaliChar)
    (chars : List Char) (i : Nat) (h : i < chars.length) (result : GoString)
    (hpos : 0 < (findLongest l chars i).longestLen)
    (hv : (findLongest l chars i).isVowel = true)
    (hr : result.length > 0 ∧ endsWithConsonant result = true)
    (ho : (findLongest l chars i).longestMatch = "o".toList) :
    loopBody bk l chars i h result = (i + (findLongest l chars i).longestLen, result) := by
  unfold loopBody
  simp only [hpos, hv, if_true, hr, and_self, ho]

theorem loopBody_of_vowel_diacritic (bk : BengaliKeyboard) (l : GoMap BengaliChar)
    (chars : List Char) (i : Nat) (h : i < chars.length) (result : GoString)
    (hpos : 0 < (findLongest l chars i).longestLen)
    (hv : (findLongest l chars i).isVowel = true)
    (hr : result.length > 0 ∧ endsWithConsonant result = true)
    (ho : (findLongest l chars i).longestMatch ≠ "o".toList) (d : GoString)
    (hd : bk.keymap.VowelDiacritics.get? (findLongest l chars i).longestMatch = some d) :
    loopBody bk l chars i h result =
      (i + (findLongest l chars i).longestLen, result ++ d) := by
  unfold loopBody
  simp only [hpos, hv, if_true, hr, and_self, ho, if_false, hd]

theorem loopBody_advances (bk : BengaliKeyboard) (l : GoMap BengaliChar) (chars : List Char)
    (i : Nat) (h : i < chars.length) (result : GoString) :
    i < (loopBody bk l chars i h result).1 ∧
      ∃ added, (loopBody bk l chars i h result).2 = result ++ added := by
  unfold loopBody
  dsimp only
  split_ifs with h1 h2 h3 h4
  · exact ⟨by simp only; omega, [], by simp⟩
  · split
    · exact ⟨by simp only; omega, _, rfl⟩
    · exact ⟨by simp only; omega, _, rfl⟩
  · exact ⟨by simp only; omega, _, rfl⟩
  · exact ⟨by simp only; omega, _, rfl⟩
  · exact ⟨by simp only; omega, _, rfl⟩

theorem loopBody_fst (bk : BengaliKeyboard) (l : GoMap BengaliChar) (chars : List Char)
    (i : Nat) (h : i < chars.length) (result : GoString)
    (hpos : 0 < (findLongest l chars i).longestLen) :
    (loopBody bk l chars i h result).1 = i + (findLongest l chars i).longestLen := by
  unfold loopBody
  simp only [gt_iff_lt, hpos, if_true]
  split_ifs <;> first | rfl | (split <;> rfl)

/-! ## The outer loop -/

theorem convertLoop_congr (bk : BengaliKeyboard) (o1 o2 : Nat → GoMap BengaliChar)
    (chars : List Char)
    (heq : ∀ i, findLongest (o1 i) chars i = findLongest (o2 i) chars i) :
    ∀ (fuel i : Nat) (result : GoString),
      convertLoop bk o1 chars fuel i result = convertLoop bk o2 chars fuel i result := by
  intro fuel
  induction fuel with
  | zero => intro i result; rfl
  | succ n ih =>
    intro i result
    unfold convertLoop
    by_cases h : i < chars.length
    · simp only [h, dite_true]
      rw [loopBody_congr bk (o1 i) (o2 i) chars i h result (heq i)]
      exact ih _ _
    · simp only [h, dite_false]

/-- With a budget of at least the number of characters still to scan the loop finishes, and
it only ever appends to `result`. -/
theorem convertLoop_total (bk : BengaliKeyboard) (order : Nat → GoMap BengaliChar)
    (chars : List Char) :
    ∀ (fuel i : Nat) (result : GoString), chars.length ≤ i + fuel →
      ∃ added, convertLoop bk order chars fuel i result = some (result ++ added) := by
  intro fuel
  induction fuel with
  | zero =>
    intro i result hle
    unfold convertLoop
    have : ¬ i < chars.length := by omega
    exact ⟨[], by simp [this]⟩
  | succ n ih =>
    intro i result hle
    unfold convertLoop
    by_cases h : i < chars.length
    · simp only [h, dite_true]
      obtain ⟨hadv, added, hadd⟩ := loopBody_advances bk (order i) chars i h result
      obtain ⟨added2, h2⟩ := ih (loopBody bk (order i) chars i h result).1
        (loopBody bk (order i) chars i h result).2 (by omega)
      refine ⟨added ++ added2, ?_⟩
      rw [h2, hadd, List.append_assoc]
    · exact ⟨[], by simp [h]⟩

theorem convertLoop_done (bk : BengaliKeyboard) (order : Nat → GoMap BengaliChar)
    (chars : List Char) (fuel i : Nat) (result : GoString) (h : chars.length ≤ i) :
    convertLoop bk order chars fuel i result = some result := by
  have hn : ¬ i < chars.length := by omega
  cases fuel with
  | zero => simp [convertLoop, hn]
  | succ n => simp [convertLoop, hn]

theorem convertLoop_step (bk : BengaliKeyboard) (order : Nat → GoMap BengaliChar)
    (chars : List Char) (fuel i : Nat) (result : GoString) (h : i < chars.length) :
    convertLoop bk order chars (fuel + 1) i result =
      convertLoop bk order chars fuel (loopBody bk (order i) chars i h result).1
        (loopBody bk (order i) chars i h result).2 := by
  rw [convertLoop]
  simp only [h, dite_true]

/-! ## Enumeration schedules -/

theorem enumerates_sourceOrder (bk : BengaliKeyboard) : Enumerates bk (sourceOrder bk) :=
  fun _ => List.Perm.refl _

theorem findLongest_enumerates (order : Nat → GoMap BengaliChar)
    (ho : Enumerates bengaliKeyboard order) (chars : List Char) (i j : Nat) :
    findLongest (order j) chars i = findLongest bengaliKeyboard.keymap.Patterns chars i :=
  findLongest_perm _ _ nodup_keys_Patterns (ho j) chars i

/-- Every enumeration schedule gives the result of the schedule that follows the order of
the assignments. -/
theorem ConvertText_sourceOrder (order : Nat → GoMap BengaliChar)
    (ho : Enumerates bengaliKeyboard order) (w : GoString) :
    ConvertText bengaliKeyboard order w =
      ConvertText bengaliKeyboard (sourceOrder bengaliKeyboard) w := by
  unfold ConvertText
  exact convertLoop_congr bengaliKeyboard order _ w
    (fun i => findLongest_enumerates order ho w i i) _ _ _

theorem ConvertText_total (bk : BengaliKeyboard) (order : Nat → GoMap BengaliChar)
    (w : GoString) : ∃ out, ConvertText bk order w = some out := by
  obtain ⟨added, h⟩ := convertLoop_total bk order w w.length 0 [] (by omega)
  exact ⟨[] ++ added, h⟩

/-! ## Facts read off the table -/

theorem Patterns_eq : bengaliKeyboard.keymap.Patterns = assignedPatterns :=
  congrArg (fun bk => bk.keymap.Patterns) bengaliKeyboard_eq

theorem VowelDiacritics_eq : bengaliKeyboard.keymap.VowelDiacritics = assignedDiacritics :=
  congrArg (fun bk => bk.keymap.VowelDiacritics) bengaliKeyboard_eq

theorem Patterns_keys_ne_nil : ∀ e ∈ bengaliKeyboard.keymap.Patterns, e.1 ≠ [] := by
  rw [Patterns_eq]
  decide!

theorem Patterns_kh_only :
    ∀ e ∈ bengaliKeyboard.keymap.Patterns, e.1.take 2 = ['k', 'h'] → e.1 = ['k', 'h'] := by
  rw [Patterns_eq]
  decide!

theorem Patterns_mem_kh :
    (['k', 'h'], (⟨['খ'], false⟩ : BengaliChar)) ∈ bengaliKeyboard.keymap.Patterns := by
  rw [Patterns_eq]
  decide!

/-- Evaluation of the converter under the schedule that follows the assignments. -/
theorem ConvertText_eval (order : Nat → GoMap BengaliChar)
    (ho : Enumerates bengaliKeyboard order) (w out : GoString)
    (h : ConvertText ⟨⟨assignedPatterns, assignedDiacritics⟩⟩
      (sourceOrder ⟨⟨assignedPatterns, assignedDiacritics⟩⟩) w = some out) :
    ConvertText bengaliKeyboard order w = some out := by
  rw [ConvertText_sourceOrder order ho w, bengaliKeyboard_eq]
  exact h

/-! ## The first iteration on a word that starts with a pattern -/

theorem matchesAt_zero_iff (chars p : GoString) :
    matchesAt chars 0 p ↔ chars.take p.length = p := by
  unfold matchesAt
  simp only [Nat.zero_add, List.drop_zero]
  constructor
  · exact fun h => h.2
  · intro h
    refine ⟨?_, h⟩
    have := congrArg List.length h
    simp only [List.length_take] at this
    omega

/-- On the word `p` itself, with `p` a key of the table, the inner search at position 0 ends
with the entry of `p`. -/
theorem findLongest_self (order : Nat → GoMap BengaliChar)
    (ho : Enumerates bengaliKeyboard order) (p : GoString) (b : BengaliChar)
    (hp : (p, b) ∈ bengaliKeyboard.keymap.Patterns) (j : Nat) :
    findLongest (order j) p 0 = Longest.ofEntry (p, b) := by
  rw [findLongest_enumerates order ho]
  have hne : p ≠ [] := Patterns_keys_ne_nil _ hp
  apply findLongest_eq_of_max _ nodup_keys_Patterns p 0 (p, b) hp
  · exact (matchesAt_zero_iff p p).2 (List.take_length p)
  · exact List.length_pos.2 hne
  · intro e2 _ hm
    have := hm.1
    show e2.1.length ≤ p.length
    omega

/-! ## Selected entries -/

/-- When the inner search selects something, it is an entry of the table that matches at the
scan position and is at least as long as every matching pattern. -/
theorem findLongest_selected (order : Nat → GoMap BengaliChar)
    (ho : Enumerates bengaliKeyboard order) (chars : List Char) (i : Nat)
    (hpos : 0 < (findLongest (order i) chars i).longestLen) :
    ∃ e ∈ bengaliKeyboard.keymap.Patterns, matchesAt chars i e.1 ∧
      findLongest (order i) chars i = Longest.ofEntry e ∧
      ∀ e2 ∈ bengaliKeyboard.keymap.Patterns, matchesAt chars i e2.1 →
        e2.1.length ≤ e.1.length := by
  rw [findLongest_enumerates order ho] at hpos ⊢
  rcases findLongest_spec bengaliKeyboard.keymap.Patterns chars i with
    ⟨hinit, _⟩ | ⟨e, he, hm, _, hr, hmax⟩
  · rw [hinit] at hpos
    exact absurd hpos (Nat.lt_irrefl 0)
  · exact ⟨e, he, hm, hr, hmax⟩

/-- The first iteration, on an empty `result`, writes the script of the selected entry. -/
theorem loopBody_first (bk : BengaliKeyboard) (l : GoMap BengaliChar) (chars : List Char)
    (h : 0 < chars.length) (e : GoString × BengaliChar)
    (hfl : findLongest l chars 0 = Longest.ofEntry e) (hpos : 0 < e.1.length) :
    loopBody bk l chars 0 h [] = (e.1.length, e.2.Bengali) := by
  have hp : 0 < (findLongest l chars 0).longestLen := by rw [hfl]; exact hpos
  cases hv : e.2.IsVowel with
  | true =>
    rw [loopBody_of_vowel_independent _ _ _ _ _ _ hp (by rw [hfl]; exact hv) (by simp), hfl]
    simp [Longest.ofEntry]
  | false =>
    rw [loopBody_of_consonant _ _ _ _ _ _ hp (by rw [hfl]; exact hv), hfl]
    simp [Longest.ofEntry]

/-! ## Words made of two patterns -/

theorem findLongest_append_left (order : Nat → GoMap BengaliChar)
    (ho : Enumerates bengaliKeyboard order) (c v : GoString) (b : BengaliChar)
    (hc : (c, b) ∈ bengaliKeyboard.keymap.Patterns)
    (hmax : ∀ e ∈ bengaliKeyboard.keymap.Patterns,
      matchesAt (c ++ v) 0 e.1 → e.1.length ≤ c.length) (j : Nat) :
    findLongest (order j) (c ++ v) 0 = Longest.ofEntry (c, b) := by
  rw [findLongest_enumerates order ho]
  apply findLongest_eq_of_max _ nodup_keys_Patterns (c ++ v) 0 (c, b) hc
  · exact (matchesAt_zero_iff _ _).2 (List.take_left c v)
  · exact List.length_pos.2 (Patterns_keys_ne_nil _ hc)
  · exact hmax

theorem findLongest_append_right (order : Nat → GoMap BengaliChar)
    (ho : Enumerates bengaliKeyboard order) (c v : GoString) (bv : BengaliChar)
    (hv : (v, bv) ∈ bengaliKeyboard.keymap.Patterns) (j : Nat) :
    findLongest (order j) (c ++ v) c.length = Longest.ofEntry (v, bv) := by
  rw [findLongest_enumerates order ho]
  apply findLongest_eq_of_max _ nodup_keys_Patterns (c ++ v) c.length (v, bv) hv
  · refine ⟨by simp, ?_⟩
    show List.take v.length (List.drop c.length (c ++ v)) = v
    rw [List.drop_left, List.take_length]
  · exact List.length_pos.2 (Patterns_keys_ne_nil _ hv)
  · intro e2 _ hm
    have := hm.1
    simp only [List.length_append] at this
    show e2.1.length ≤ v.length
    omega

/-- A word `c ++ v` made of two keys of the table, where no pattern of the table matching at
position 0 reaches beyond `c`, is converted in two iterations: `c` is written first, then `v`
is handled with the script of `c` as the output so far. -/
theorem ConvertText_two_patterns (order : Nat → GoMap BengaliChar)
    (ho : Enumerates bengaliKeyboard order) (c v : GoString) (b bv : BengaliChar)
    (hc : (c, b) ∈ bengaliKeyboard.keymap.Patterns)
    (hv : (v, bv) ∈ bengaliKeyboard.keymap.Patterns)
    (hmax : ∀ e ∈ bengaliKeyboard.keymap.Patterns,
      matchesAt (c ++ v) 0 e.1 → e.1.length ≤ c.length)
    (h : c.length < (c ++ v).length) :
    ConvertText bengaliKeyboard order (c ++ v) =
      some (loopBody bengaliKeyboard (order c.length) (c ++ v) c.length h b.Bengali).2 := by
  have hcpos : 0 < c.length := List.length_pos.2 (Patterns_keys_ne_nil _ hc)
  have hvpos : 0 < v.length := List.length_pos.2 (Patterns_keys_ne_nil _ hv)
  obtain ⟨n, hn⟩ : ∃ n, (c ++ v).length = n + 1 + 1 :=
    ⟨c.length + v.length - 2, by simp only [List.length_append]; omega⟩
  have h0 : 0 < (c ++ v).length := by omega
  have hfr := findLongest_append_right order ho c v bv hv c.length
  unfold ConvertText
  simp only
  rw [hn, convertLoop_step bengaliKeyboard order (c ++ v) (n + 1) 0 [] h0,
    loopBody_first _ _ _ h0 (c, b) (findLongest_append_left order ho c v b hc hmax 0) hcpos,
    convertLoop_step bengaliKeyboard order (c ++ v) n c.length b.Bengali h]
  apply convertLoop_done
  rw [loopBody_fst _ _ _ _ _ _ (by rw [hfr]; exact hvpos), hfr]
  show (c ++ v).length ≤ c.length + v.length
  simp

theorem Patterns_ending_in_o :
    ∀ e ∈ bengaliKeyboard.keymap.Patterns, e.1.getLast? = some 'o' →
      e.1 = ['o'] ∨ e.1 = ['y', 'o'] := by
  rw [Patterns_eq]
  decide!

theorem Patterns_mem_o :
    (['o'], (⟨['অ'], true⟩ : BengaliChar)) ∈ bengaliKeyboard.keymap.Patterns := by
  rw [Patterns_eq]
  decide!

theorem Patterns_mem_y :
    (['y'], (⟨"য়".toList, false⟩ : BengaliChar)) ∈ bengaliKeyboard.keymap.Patterns := by
  rw [Patterns_eq]
  decide!

theorem Patterns_diacritic_ne_independent :
    ∀ e ∈ bengaliKeyboard.keymap.Patterns,
      bengaliKeyboard.keymap.VowelDiacritics.get? e.1 ≠ some e.2.Bengali := by
  rw [Patterns_eq, VowelDiacritics_eq]
  decide!

/-! ## Determinism -/

/-- C1: `ConvertText` is deterministic. Whatever orders the two runs of `range Patterns` follow
at each scan position, two calls on the same word return the same output, and they do return
one. -/
theorem ConvertText_deterministic (o1 o2 : Nat → GoMap BengaliChar)
    (h1 : Enumerates bengaliKeyboard o1) (h2 : Enumerates bengaliKeyboard o2)
    (w : GoString) :
    ConvertText bengaliKeyboard o1 w = ConvertText bengaliKeyboard o2 w ∧
      ∃ out, ConvertText bengaliKeyboard o1 w = some out :=
  ⟨(ConvertText_sourceOrder o1 h1 w).trans (ConvertText_sourceOrder o2 h2 w).symm,
    ConvertText_total bengaliKeyboard o1 w⟩

theorem ConvertText_deterministic_witness :
    Enumerates bengaliKeyboard (sourceOrder bengaliKeyboard) ∧
      Enumerates bengaliKeyboard (fun _ => bengaliKeyboard.keymap.Patterns.reverse) ∧
      (ConvertText bengaliKeyboard (sourceOrder bengaliKeyboard) "kha".toList =
          ConvertText bengaliKeyboard (fun _ => bengaliKeyboard.keymap.Patterns.reverse)
            "kha".toList ∧
        ∃ out, ConvertText bengaliKeyboard (sourceOrder bengaliKeyboard) "kha".toList
          = some out) :=
  ⟨enumerates_sourceOrder _, fun _ => List.reverse_perm _,
    ConvertText_deterministic _ _ (enumerates_sourceOrder _) (fun _ => List.reverse_perm _) _⟩

/-! ## Longest match -/

/-- C2: longest-match precedence. At a scan position `i` the inner search, in whatever order
it visits the table, selects nothing exactly when no pattern of the table matches the input at
`i`; otherwise it ends with a matching entry whose pattern is at least as long as every
matching pattern, no other matching entry has that length, and the position advances by the
length of that pattern. On a word
`"kh" ++ s` the first iteration consumes the two characters `kh` and writes `খ`, and the
output of `ConvertText` starts with `খ`. -/
theorem longest_match_precedence (order : Nat → GoMap BengaliChar)
    (ho : Enumerates bengaliKeyboard order) (chars : List Char) (i : Nat)
    (h : i < chars.length) (result s : GoString) :
    ((findLongest (order i) chars i).longestLen = 0 ↔
        ∀ e ∈ bengaliKeyboard.keymap.Patterns, ¬ matchesAt chars i e.1) ∧
      (0 < (findLongest (order i) chars i).longestLen →
        ∃ e ∈ bengaliKeyboard.keymap.Patterns,
          matchesAt chars i e.1 ∧
          (∀ e2 ∈ bengaliKeyboard.keymap.Patterns,
            matchesAt chars i e2.1 → e2.1.length ≤ e.1.length) ∧
          (∀ e2 ∈ bengaliKeyboard.keymap.Patterns,
            matchesAt chars i e2.1 → e2.1.length = e.1.length → e2 = e) ∧
          findLongest (order i) chars i =
            { longestMatch := e.1, longestBengali := e.2.Bengali,
              longestLen := e.1.length, isVowel := e.2.IsVowel } ∧
          (loopBody bengaliKeyboard (order i) chars i h result).1 = i + e.1.length) ∧
      loopBody bengaliKeyboard (order 0) ('k' :: 'h' :: s) 0 (Nat.succ_pos _) [] =
        (2, ['খ']) ∧
      ∃ rest, ConvertText bengaliKeyboard order ('k' :: 'h' :: s) = some ('খ' :: rest) := by
  have hfl := findLongest_enumerates order ho
  have hkh : ∀ j, findLongest (order j) ('k' :: 'h' :: s) 0 =
      Longest.ofEntry (['k', 'h'], ⟨['খ'], false⟩) := by
    intro j
    rw [hfl]
    apply findLongest_eq_of_max _ nodup_keys_Patterns _ 0 _ Patterns_mem_kh
    · exact (matchesAt_zero_iff _ _).2 rfl
    · exact Nat.succ_pos _
    · intro e2 he2 hm
      have hm2 := (matchesAt_zero_iff _ _).1 hm
      by_cases hlen : e2.1.length ≤ 2
      · exact hlen
      · have h2 : e2.1.take 2 = ['k', 'h'] := by
          rw [← hm2, List.take_take]
          have : min 2 e2.1.length = 2 := by omega
          rw [this]
          rfl
        exact Nat.le_of_eq (congrArg List.length (Patterns_kh_only e2 he2 h2))
  have hbody : loopBody bengaliKeyboard (order 0) ('k' :: 'h' :: s) 0 (Nat.succ_pos _) [] =
      (2, ['খ']) := by
    rw [loopBody_of_consonant _ _ _ _ _ _ (by rw [hkh]; exact Nat.succ_pos _)
      (by rw [hkh]; rfl), hkh]
    rfl
  refine ⟨⟨?_, ?_⟩, ?_, hbody, ?_⟩
  · intro h0 e he hm
    rw [hfl] at h0
    rcases findLongest_spec bengaliKeyboard.keymap.Patterns chars i with
      ⟨_, hall⟩ | ⟨e1, _, _, hpos, hr, _⟩
    · exact Patterns_keys_ne_nil e he (List.length_eq_zero.1 (hall e he hm))
    · rw [hr] at h0
      have : e1.1.length = 0 := h0
      omega
  · intro hno
    rw [hfl, findLongest_eq_init _ chars i (fun e he hm => absurd hm (hno e he))]
    rfl
  · intro hpos
    rw [hfl] at hpos
    rcases findLongest_spec bengaliKeyboard.keymap.Patterns chars i with
      ⟨hinit, _⟩ | ⟨e1, he1, hm1, _, hr, hmax⟩
    · rw [hinit] at hpos
      exact absurd hpos (Nat.lt_irrefl 0)
    · refine ⟨e1, he1, hm1, hmax, ?_, by rw [hfl, hr]; rfl, ?_⟩
      · intro e2 he2 hm2 hlen2
        have hkey : e2.1 = e1.1 := matchesAt_eq_of_length_eq chars i _ _ hm2 hm1 hlen2
        have hval : e2.2 = e1.2 := by
          apply GoMap.eq_of_mem_of_mem _ nodup_keys_Patterns e1.1
          · rw [← hkey]; exact he2
          · exact he1
        exact Prod.ext hkey hval
      have hlen : (findLongest (order i) chars i).longestLen = e1.1.length := by
        rw [hfl, hr]; rfl
      rw [loopBody_fst _ _ _ _ _ _ (by rw [hlen]; omega), hlen]
  · obtain ⟨added, hadd⟩ := convertLoop_total bengaliKeyboard order ('k' :: 'h' :: s)
      (s.length + 1) 2 ['খ'] (by simp only [List.length_cons]; omega)
    refine ⟨added, ?_⟩
    unfold ConvertText
    show convertLoop bengaliKeyboard order ('k' :: 'h' :: s) (s.length + 1 + 1) 0 [] = _
    rw [convertLoop_step bengaliKeyboard order ('k' :: 'h' :: s) (s.length + 1) 0 []
      (Nat.succ_pos _), hbody]
    exact hadd

theorem longest_match_precedence_witness :
    Enumerates bengaliKeyboard (sourceOrder bengaliKeyboard) ∧
      0 < "khan".toList.length ∧
      0 < (findLongest (sourceOrder bengaliKeyboard 0) "khan".toList 0).longestLen ∧
      ∃ rest, ConvertText bengaliKeyboard (sourceOrder bengaliKeyboard) ('k' :: 'h' :: ['a', 'n'])
        = some ('খ' :: rest) :=
  have hw := longest_match_precedence (sourceOrder bengaliKeyboard)
    (enumerates_sourceOrder _) "khan".toList 0 (by decide) [] ['a', 'n']
  ⟨enumerates_sourceOrder _, by decide,
    Nat.pos_of_ne_zero (fun h0 => (hw.1.1 h0) _ Patterns_mem_kh
      ((matchesAt_zero_iff _ _).2 (by decide))),
    hw.2.2.2⟩

theorem ConvertText_pattern (order : Nat → GoMap BengaliChar)
    (ho : Enumerates bengaliKeyboard order) (p : GoString) (b : BengaliChar)
    (hp : (p, b) ∈ bengaliKeyboard.keymap.Patterns) :
    ConvertText bengaliKeyboard order p = some b.Bengali := by
  have hlen : 0 < p.length := List.length_pos.2 (Patterns_keys_ne_nil _ hp)
  obtain ⟨n, hn⟩ : ∃ n, p.length = n + 1 := ⟨p.length - 1, by omega⟩
  unfold ConvertText
  simp only
  rw [hn, convertLoop_step bengaliKeyboard order p n 0 [] hlen,
    loopBody_first _ _ _ hlen (p, b) (findLongest_self order ho p b hp 0) hlen]
  exact convertLoop_done _ _ _ _ _ _ (Nat.le_refl _)

/-! ## Literal mappings and whole words -/

/-- C3: exact literal mapping. For every key `p` of the table built by `NewKeyMap`,
`ConvertText(p)` returns `Patterns[p].Bengali`, under every enumeration order; in particular
`ConvertText("k") = "ক"`, `ConvertText("kh") = "খ"` and `ConvertText("o") = "অ"`. -/
theorem exact_literal_mapping (order : Nat → GoMap BengaliChar)
    (ho : Enumerates bengaliKeyboard order) (p : GoString) (b : BengaliChar)
    (hp : bengaliKeyboard.keymap.Patterns.get? p = some b) :
    ConvertText bengaliKeyboard order p = some b.Bengali ∧
      ConvertText bengaliKeyboard order "k".toList = some "ক".toList ∧
      ConvertText bengaliKeyboard order "kh".toList = some "খ".toList ∧
      ConvertText bengaliKeyboard order "o".toList = some "অ".toList := by
  refine ⟨ConvertText_pattern order ho p b (GoMap.mem_of_get? _ _ _ hp), ?_, ?_, ?_⟩
  · exact ConvertText_pattern order ho _ ⟨"ক".toList, false⟩ (by rw [Patterns_eq]; decide!)
  · exact ConvertText_pattern order ho _ ⟨"খ".toList, false⟩ (by rw [Patterns_eq]; decide!)
  · exact ConvertText_pattern order ho _ ⟨"অ".toList, true⟩ (by rw [Patterns_eq]; decide!)

theorem exact_literal_mapping_witness :
    Enumerates bengaliKeyboard (sourceOrder bengaliKeyboard) ∧
      bengaliKeyboard.keymap.Patterns.get? "shkr".toList = some ⟨"ষ্ক্র".toList, false⟩ ∧
      ConvertText bengaliKeyboard (sourceOrder bengaliKeyboard) "shkr".toList
        = some "ষ্ক্র".toList :=
  have hget : bengaliKeyboard.keymap.Patterns.get? "shkr".toList
      = some ⟨"ষ্ক্র".toList, false⟩ := by rw [Patterns_eq]; decide!
  ⟨enumerates_sourceOrder _, hget,
    (exact_literal_mapping _ (enumerates_sourceOrder _) _ _ hget).1⟩

/-- C4: composite real-word cases. With the table built by `NewKeyMap`,
`ConvertText("bangla") = "বাংলা"` and `ConvertText("ami") = "আমি"`, under every enumeration
order. -/
theorem composite_words (order : Nat → GoMap BengaliChar)
    (ho : Enumerates bengaliKeyboard order) :
    ConvertText bengaliKeyboard order "bangla".toList = some "বাংলা".toList ∧
      ConvertText bengaliKeyboard order "ami".toList = some "আমি".toList :=
  ⟨ConvertText_eval order ho _ _ (by decide!), ConvertText_eval order ho _ _ (by decide!)⟩

theorem composite_words_witness :
    Enumerates bengaliKeyboard (sourceOrder bengaliKeyboard) ∧
      ConvertText bengaliKeyboard (sourceOrder bengaliKeyboard) "bangla".toList
        = some ['ব', 'া', 'ং', 'ল', 'া'] ∧
      ConvertText bengaliKeyboard (sourceOrder bengaliKeyboard) "ami".toList
        = some ['আ', 'ম', 'ি'] :=
  ⟨enumerates_sourceOrder _, composite_words _ (enumerates_sourceOrder _)⟩

/-! ## Vowels in context -/

/-- C5: context-sensitive vowel, consonant case. When the longest match at the current
position is a vowel pattern other than `"o"` with an entry `d` in `VowelDiacritics`, and the
output so far ends in a code point `c` with `isBengaliConsonant c`, the iteration appends
exactly `d` and advances by the length of the pattern; `d` is not the independent vowel glyph
`Patterns[v].Bengali`. In particular `ConvertText("ka")` is `ক` followed by the diacritic
`া`, and not `ক` followed by `আ`. -/
theorem vowel_diacritic_after_consonant (order : Nat → GoMap BengaliChar)
    (ho : Enumerates bengaliKeyboard order) (chars : List Char) (i : Nat)
    (h : i < chars.length) (result d : GoString) (c : Char)
    (hpos : 0 < (findLongest (order i) chars i).longestLen)
    (hv : (findLongest (order i) chars i).isVowel = true)
    (hne : (findLongest (order i) chars i).longestMatch ≠ "o".toList)
    (hd : bengaliKeyboard.keymap.VowelDiacritics.get?
      (findLongest (order i) chars i).longestMatch = some d)
    (hlast : result.getLast? = some c) (hc : isBengaliConsonant c = true) :
    loopBody bengaliKeyboard (order i) chars i h result =
        (i + (findLongest (order i) chars i).longestLen, result ++ d) ∧
      bengaliKeyboard.keymap.Patterns.get? (findLongest (order i) chars i).longestMatch =
        some ⟨(findLongest (order i) chars i).longestBengali, true⟩ ∧
      d ≠ (findLongest (order i) chars i).longestBengali ∧
      ConvertText bengaliKeyboard order "ka".toList = some ['ক', 'া'] ∧
      ConvertText bengaliKeyboard order "ka".toList ≠ some ['ক', 'আ'] := by
  have hka : ConvertText bengaliKeyboard order "ka".toList = some ['ক', 'া'] :=
    ConvertText_eval order ho _ _ (by decide!)
  have hr : result.length > 0 ∧ endsWithConsonant result = true := by
    refine ⟨?_, by rw [endsWithConsonant_of_getLast? result c hlast]; exact hc⟩
    cases result with
    | nil => simp at hlast
    | cons a t => exact Nat.succ_pos _
  obtain ⟨e, he, _, hfl, _⟩ := findLongest_selected order ho chars i hpos
  refine ⟨loopBody_of_vowel_diacritic _ _ _ _ _ _ hpos hv hr hne d hd, ?_, ?_, hka, ?_⟩
  · rw [hfl] at hv ⊢
    have hv2 : e.2.IsVowel = true := hv
    show bengaliKeyboard.keymap.Patterns.get? e.1 = some ⟨e.2.Bengali, true⟩
    rw [GoMap.get?_of_mem _ nodup_keys_Patterns e.1 e.2 he, ← hv2]
  · rw [hfl] at hd ⊢
    have hd2 : bengaliKeyboard.keymap.VowelDiacritics.get? e.1 = some d := hd
    intro heq
    have heq2 : d = e.2.Bengali := heq
    exact Patterns_diacritic_ne_independent e he (by rw [hd2, heq2])
  · rw [hka]
    decide

theorem vowel_diacritic_after_consonant_witness :
    Enumerates bengaliKeyboard (sourceOrder bengaliKeyboard) ∧
      loopBody bengaliKeyboard (sourceOrder bengaliKeyboard 1) "ka".toList 1 (by decide) ['ক']
        = (2, ['ক', 'া']) :=
  have hfl : findLongest (sourceOrder bengaliKeyboard 1) "ka".toList 1 =
      ⟨['a'], ['আ'], 1, true⟩ := by
    show findLongest bengaliKeyboard.keymap.Patterns "ka".toList 1 = _
    rw [Patterns_eq]
    decide!
  have hw := vowel_diacritic_after_consonant (sourceOrder bengaliKeyboard)
    (enumerates_sourceOrder _) "ka".toList 1 (by decide) ['ক'] ['া'] 'ক'
    (by rw [hfl]; decide) (by rw [hfl]) (by rw [hfl]; decide)
    (by rw [hfl, VowelDiacritics_eq]; decide!) rfl (by decide)
  ⟨enumerates_sourceOrder _, by rw [hw.1, hfl]; rfl⟩

/-- C6: inherent vowel elision. For every non-vowel pattern `c` of the table whose script
output ends in a code point for which `isBengaliConsonant` holds,
`ConvertText(c ++ "o") = Patterns[c].Bengali`; in particular `ConvertText("ko") = "ক"`. -/
theorem inherent_vowel_elision (order : Nat → GoMap BengaliChar)
    (ho : Enumerates bengaliKeyboard order) (c : GoString) (b : BengaliChar)
    (hc : bengaliKeyboard.keymap.Patterns.get? c = some b) (_hnv : b.IsVowel = false)
    (hcons : endsWithConsonant b.Bengali = true) :
    ConvertText bengaliKeyboard order (c ++ "o".toList) = some b.Bengali ∧
      ConvertText bengaliKeyboard order "ko".toList = some "ক".toList := by
  refine ⟨?_, ConvertText_eval order ho _ _ (by decide!)⟩
  have hcm := GoMap.mem_of_get? _ _ _ hc
  have hcne : c ≠ [] := Patterns_keys_ne_nil _ hcm
  have hmax : ∀ e ∈ bengaliKeyboard.keymap.Patterns,
      matchesAt (c ++ ['o']) 0 e.1 → e.1.length ≤ c.length := by
    intro e he hm
    by_cases hle : e.1.length ≤ c.length
    · exact hle
    · exfalso
      have hlen := hm.1
      simp only [List.length_append, List.length_singleton] at hlen
      have heq : e.1 = c ++ ['o'] := by
        rw [← ((matchesAt_zero_iff _ _).1 hm)]
        apply List.take_of_length_le
        simp only [List.length_append, List.length_singleton]
        omega
      rcases Patterns_ending_in_o e he (by rw [heq]; exact List.getLast?_concat c) with
        h1 | h1
      · rw [heq] at h1
        have := congrArg List.length h1
        simp only [List.length_append, List.length_singleton] at this
        have : c.length = 0 := by omega
        exact hcne (List.length_eq_zero.1 this)
      · rw [heq] at h1
        have h2 : c ++ ['o'] = ['y'] ++ ['o'] := h1
        have hcy : c = ['y'] := List.append_cancel_right h2
        rw [hcy] at hcm
        have hb := GoMap.eq_of_mem_of_mem _ nodup_keys_Patterns _ _ _ hcm Patterns_mem_y
        rw [hb] at hcons
        exact absurd hcons (by decide)
  have hlt : c.length < (c ++ ['o']).length := by simp
  show ConvertText bengaliKeyboard order (c ++ ['o']) = some b.Bengali
  rw [ConvertText_two_patterns order ho c ['o'] b _ hcm Patterns_mem_o hmax hlt]
  have hfr := findLongest_append_right order ho c ['o'] _ Patterns_mem_o c.length
  have hres : b.Bengali.length > 0 ∧ endsWithConsonant b.Bengali = true := by
    refine ⟨?_, hcons⟩
    cases hb : b.Bengali with
    | nil => rw [hb] at hcons; exact absurd hcons (by decide)
    | cons a t => exact Nat.succ_pos _
  rw [loopBody_of_vowel_inherent _ _ _ _ _ _ (by rw [hfr]; exact Nat.succ_pos _)
    (by rw [hfr]; rfl) hres (by rw [hfr]; rfl)]

theorem inherent_vowel_elision_witness :
    Enumerates bengaliKeyboard (sourceOrder bengaliKeyboard) ∧
      bengaliKeyboard.keymap.Patterns.get? "kSh".toList = some ⟨"ক্ষ".toList, false⟩ ∧
      endsWithConsonant "ক্ষ".toList = true ∧
      ConvertText bengaliKeyboard (sourceOrder bengaliKeyboard) ("kSh".toList ++ "o".toList)
        = some "ক্ষ".toList :=
  have hget : bengaliKeyboard.keymap.Patterns.get? "kSh".toList
      = some ⟨"ক্ষ".toList, false⟩ := by rw [Patterns_eq]; decide!
  have hcons : endsWithConsonant "ক্ষ".toList = true := by decide!
  ⟨enumerates_sourceOrder _, hget, hcons,
    (inherent_vowel_elision _ (enumerates_sourceOrder _) _ _ hget rfl hcons).1⟩

/-- C7: independent vowel when not after a consonant. When the longest match at the current
position is a vowel pattern and the output so far is empty or ends in a code point for which
`isBengaliConsonant` is false, the iteration appends the independent vowel glyph
`Patterns[v].Bengali` and advances by the length of the pattern, whatever the map
`VowelDiacritics` contains. In particular `ConvertText("o") = "অ"`, and `ConvertText("ami")`
starts with `আ`. -/
theorem independent_vowel (dia : GoMap GoString) (order : Nat → GoMap BengaliChar)
    (ho : Enumerates bengaliKeyboard order) (chars : List Char) (i : Nat)
    (h : i < chars.length) (result : GoString)
    (hpos : 0 < (findLongest (order i) chars i).longestLen)
    (hv : (findLongest (order i) chars i).isVowel = true)
    (hr : result = [] ∨ ∃ c, result.getLast? = some c ∧ isBengaliConsonant c = false) :
    loopBody ⟨⟨bengaliKeyboard.keymap.Patterns, dia⟩⟩ (order i) chars i h result =
        (i + (findLongest (order i) chars i).longestLen,
          result ++ (findLongest (order i) chars i).longestBengali) ∧
      bengaliKeyboard.keymap.Patterns.get? (findLongest (order i) chars i).longestMatch =
        some ⟨(findLongest (order i) chars i).longestBengali, true⟩ ∧
      ConvertText bengaliKeyboard order "o".toList = some "অ".toList ∧
      ∃ rest, ConvertText bengaliKeyboard order "ami".toList = some ('আ' :: rest) := by
  have hnot : ¬ (result.length > 0 ∧ endsWithConsonant result = true) := by
    rintro ⟨hlen, hcons⟩
    rcases hr with hnil | ⟨c, hlast, hc⟩
    · rw [hnil] at hlen
      exact absurd hlen (Nat.lt_irrefl 0)
    · rw [endsWithConsonant_of_getLast? result c hlast, hc] at hcons
      exact absurd hcons (by decide)
  obtain ⟨e, he, _, hfl, _⟩ := findLongest_selected order ho chars i hpos
  refine ⟨loopBody_of_vowel_independent _ _ _ _ _ _ hpos hv hnot, ?_,
    ConvertText_pattern order ho _ _ Patterns_mem_o,
    ⟨_, ConvertText_eval order ho "ami".toList ['আ', 'ম', 'ি'] (by decide!)⟩⟩
  rw [hfl] at hv ⊢
  have hv2 : e.2.IsVowel = true := hv
  show bengaliKeyboard.keymap.Patterns.get? e.1 = some ⟨e.2.Bengali, true⟩
  rw [GoMap.get?_of_mem _ nodup_keys_Patterns e.1 e.2 he, ← hv2]

theorem independent_vowel_witness :
    Enumerates bengaliKeyboard (sourceOrder bengaliKeyboard) ∧
      loopBody ⟨⟨bengaliKeyboard.keymap.Patterns, []⟩⟩ (sourceOrder bengaliKeyboard 2)
          "kaa".toList 2 (by decide) ['ক', 'া'] = (3, ['ক', 'া', 'আ']) ∧
      loopBody bengaliKeyboard (sourceOrder bengaliKeyboard 0) "ami".toList 0 (by decide) []
        = (1, ['আ']) :=
  have hfl : findLongest (sourceOrder bengaliKeyboard 2) "kaa".toList 2 =
      ⟨['a'], ['আ'], 1, true⟩ := by
    show findLongest bengaliKeyboard.keymap.Patterns "kaa".toList 2 = _
    rw [Patterns_eq]
    decide!
  have hfl0 : findLongest (sourceOrder bengaliKeyboard 0) "ami".toList 0 =
      ⟨['a'], ['আ'], 1, true⟩ := by
    show findLongest bengaliKeyboard.keymap.Patterns "ami".toList 0 = _
    rw [Patterns_eq]
    decide!
  have hw := independent_vowel [] (sourceOrder bengaliKeyboard)
    (enumerates_sourceOrder _) "kaa".toList 2 (by decide) ['ক', 'া']
    (by rw [hfl]; decide) (by rw [hfl]) (Or.inr ⟨'া', rfl, by decide⟩)
  have hw0 := independent_vowel bengaliKeyboard.keymap.VowelDiacritics
    (sourceOrder bengaliKeyboard) (enumerates_sourceOrder _) "ami".toList 0 (by decide) []
    (by rw [hfl0]; decide) (by rw [hfl0]) (Or.inl rfl)
  ⟨enumerates_sourceOrder _, by rw [hw.1, hfl]; rfl, by
    have h1 := hw0.1
    rw [hfl0] at h1
    exact h1⟩

/-! ## Passthrough -/

/-- No pattern matches at a position whose character starts no pattern of the table. -/
theorem not_matchesAt_of_head (chars : List Char) (i : Nat) (h : i < chars.length)
    (hw : ∀ e ∈ bengaliKeyboard.keymap.Patterns, e.1.head? ≠ some (chars.get ⟨i, h⟩)) :
    ∀ e ∈ bengaliKeyboard.keymap.Patterns, ¬ matchesAt chars i e.1 := by
  intro e he hm
  apply hw e he
  have hne : e.1 ≠ [] := Patterns_keys_ne_nil e he
  have hlen : e.1.length ≠ 0 := fun h0 => hne (List.length_eq_zero.1 h0)
  rw [← hm.2, List.head?_take, if_neg hlen, List.head?_drop, List.getElem?_eq_getElem h]
  rfl

theorem findLongest_no_match (order : Nat → GoMap BengaliChar)
    (ho : Enumerates bengaliKeyboard order) (chars : List Char) (i : Nat)
    (hno : ∀ e ∈ bengaliKeyboard.keymap.Patterns, ¬ matchesAt chars i e.1) :
    (findLongest (order i) chars i).longestLen = 0 := by
  rw [findLongest_enumerates order ho,
    findLongest_eq_init _ chars i (fun e he hm => absurd hm (hno e he))]
  rfl

theorem convertLoop_passthrough (order : Nat → GoMap BengaliChar)
    (ho : Enumerates bengaliKeyboard order) (w : GoString)
    (hw : ∀ ch ∈ w, ∀ e ∈ bengaliKeyboard.keymap.Patterns, e.1.head? ≠ some ch) :
    ∀ (fuel i : Nat), i ≤ w.length → w.length ≤ i + fuel →
      convertLoop bengaliKeyboard order w fuel i (w.take i) = some w := by
  intro fuel
  induction fuel with
  | zero =>
    intro i h1 h2
    rw [convertLoop_done _ _ _ _ _ _ (by omega), List.take_of_length_le (by omega)]
  | succ n ih =>
    intro i h1 h2
    by_cases h : i < w.length
    · rw [convertLoop_step _ _ _ _ _ _ h, loopBody_of_none _ _ _ _ h _
        (findLongest_no_match order ho w i
          (not_matchesAt_of_head w i h (hw _ (List.get_mem w i h))))]
      have htake : w.take i ++ [w.get ⟨i, h⟩] = w.take (i + 1) := by
        rw [← List.take_concat_get w i h, List.concat_eq_append]
        rfl
      show convertLoop bengaliKeyboard order w n (i + 1) (w.take i ++ [w.get ⟨i, h⟩]) = _
      rw [htake]
      exact ih (i + 1) (by omega) (by omega)
    · rw [convertLoop_done _ _ _ _ _ _ (by omega), List.take_of_length_le (by omega)]

theorem Patterns_not_starting :
    ∀ ch ∈ ['q', 'w', 'x', '_'], ∀ e ∈ bengaliKeyboard.keymap.Patterns,
      e.1.head? ≠ some ch := by
  rw [Patterns_eq]
  decide!

/-- C8: passthrough on no match. At a scan position where no pattern of the table matches the
input, the character at that position is appended to the output unchanged and the position
advances by exactly one. Consequently a word none of whose characters is the first character
of a pattern of the table is returned unchanged; so are `"q"`, `"w"`, `"x"` and `"_"`. -/
theorem passthrough_on_no_match (order : Nat → GoMap BengaliChar)
    (ho : Enumerates bengaliKeyboard order) (chars : List Char) (i : Nat)
    (h : i < chars.length) (result w : GoString) :
    ((∀ e ∈ bengaliKeyboard.keymap.Patterns, ¬ matchesAt chars i e.1) →
        loopBody bengaliKeyboard (order i) chars i h result =
          (i + 1, result ++ [chars.get ⟨i, h⟩])) ∧
      ((∀ ch ∈ w, ∀ e ∈ bengaliKeyboard.keymap.Patterns, e.1.head? ≠ some ch) →
        ConvertText bengaliKeyboard order w = some w) ∧
      ConvertText bengaliKeyboard order "q".toList = some "q".toList ∧
      ConvertText bengaliKeyboard order "w".toList = some "w".toList ∧
      ConvertText bengaliKeyboard order "x".toList = some "x".toList ∧
      ConvertText bengaliKeyboard order "_".toList = some "_".toList := by
  have hgen : ∀ w : GoString,
      (∀ ch ∈ w, ∀ e ∈ bengaliKeyboard.keymap.Patterns, e.1.head? ≠ some ch) →
        ConvertText bengaliKeyboard order w = some w := by
    intro w hw
    exact convertLoop_passthrough order ho w hw w.length 0 (Nat.zero_le _) (by omega)
  have hone : ∀ ch ∈ ['q', 'w', 'x', '_'], ConvertText bengaliKeyboard order [ch] = some [ch] := by
    intro ch hch
    apply hgen
    intro c2 hc2
    rw [List.mem_singleton.1 hc2]
    exact Patterns_not_starting ch hch
  refine ⟨fun hno => loopBody_of_none _ _ _ _ h _ (findLongest_no_match order ho chars i hno),
    hgen w, hone 'q' (by decide), hone 'w' (by decide), hone 'x' (by decide),
    hone '_' (by decide)⟩

theorem passthrough_on_no_match_witness :
    Enumerates bengaliKeyboard (sourceOrder bengaliKeyboard) ∧
      (∀ e ∈ bengaliKeyboard.keymap.Patterns, ¬ matchesAt "kxa".toList 1 e.1) ∧
      loopBody bengaliKeyboard (sourceOrder bengaliKeyboard 1) "kxa".toList 1 (by decide) ['ক']
        = (2, ['ক', 'x']) ∧
      (∀ ch ∈ "qwx_".toList, ∀ e ∈ bengaliKeyboard.keymap.Patterns, e.1.head? ≠ some ch) ∧
      ConvertText bengaliKeyboard (sourceOrder bengaliKeyboard) "qwx_".toList
        = some "qwx_".toList :=
  have hno : ∀ e ∈ bengaliKeyboard.keymap.Patterns, ¬ matchesAt "kxa".toList 1 e.1 := by
    rw [Patterns_eq]
    decide!
  have hw := passthrough_on_no_match (sourceOrder bengaliKeyboard)
    (enumerates_sourceOrder _) "kxa".toList 1 (by decide) ['ক'] "qwx_".toList
  ⟨enumerates_sourceOrder _, hno, hw.1 hno, Patterns_not_starting,
    hw.2.1 Patterns_not_starting⟩

/-! ## The input session -/

theorem boundary_ne_backspace (c : Char) (hc : c = ' ' ∨ c = '\n' ∨ c = '\t') :
    c ≠ '\x08' := by
  rcases hc with h | h | h <;> rw [h] <;> decide

/-- What `processCharacter` does on a boundary character, given the result of the
conversion of the buffer. -/
theorem processCharacter_boundary (order : Nat → GoMap BengaliChar) (st : KeyboardState)
    (c : Char) (hc : c = ' ' ∨ c = '\n' ∨ c = '\t') (out : GoString)
    (hconv : ConvertText bengaliKeyboard order st.inputBuffer = some out) :
    processCharacter order st c =
      if st.inputBuffer ≠ [] ∧ out ≠ [] ∧ out ≠ st.inputBuffer then
        some ⟨⟨st.enabled, [], []⟩,
          List.replicate st.inputBuffer.length Sent.sendBackspace ++
            [Sent.sendUnicodeText out, Sent.sendCharacter c], true⟩
      else some ⟨⟨st.enabled, [], []⟩, [], false⟩ := by
  unfold processCharacter
  rw [if_neg (boundary_ne_backspace c hc), if_pos hc]
  by_cases hb : st.inputBuffer = []
  · simp [hb]
  · have hlen : st.inputBuffer.length > 0 := List.length_pos.2 hb
    rw [if_pos hlen]
    simp only [hconv]
    by_cases h1 : out = []
    · simp [h1, hb]
    · have hlen1 : out.length > 0 := List.length_pos.2 h1
      by_cases h2 : out = st.inputBuffer
      · simp [h2, hb]
      · simp [h1, h2, hb, hlen1]

/-- What `processCharacter` does on a character accepted by `isValidInputChar`. -/
theorem processCharacter_valid (order : Nat → GoMap BengaliChar) (st : KeyboardState)
    (ch : Char) (h1 : ch ≠ '\x08') (h2 : ¬ (ch = ' ' ∨ ch = '\n' ∨ ch = '\t'))
    (h3 : isValidInputChar ch = true) :
    processCharacter order st ch =
      some ⟨⟨st.enabled, st.inputBuffer ++ [ch], st.lastBengaliOutput⟩, [], false⟩ := by
  unfold processCharacter
  rw [if_neg h1, if_neg h2, if_pos h3]

/-- C9: replace on a word boundary. For every session whose buffer `b` is non-empty (whatever
its `enabled` flag, which `processCharacter` does not read) and every boundary character `c`
among space, newline and tab, if `ConvertText(b)` is non-empty and differs from `b` then
`processCharacter(c)` returns `true` and makes exactly these calls: `sendBackspace` as many
times as `b` has code points, which is at least once, then `sendUnicodeText(ConvertText(b))`,
then `sendCharacter(c)`; the buffer is empty afterwards. Feeding `k`, `a` and a space to an
enabled session with an empty buffer passes the two letters through and then sends two
backspaces, the text `কা` and the space. -/
theorem replace_on_boundary (order : Nat → GoMap BengaliChar)
    (ho : Enumerates bengaliKeyboard order) (st : KeyboardState) (c : Char)
    (out : GoString) (hb : st.inputBuffer ≠ [])
    (hc : c = ' ' ∨ c = '\n' ∨ c = '\t')
    (hconv : ConvertText bengaliKeyboard order st.inputBuffer = some out)
    (hne : out ≠ []) (hdiff : out ≠ st.inputBuffer) :
    processCharacter order st c =
        some { state := { enabled := st.enabled, inputBuffer := [], lastBengaliOutput := [] }
               sent := List.replicate st.inputBuffer.length Sent.sendBackspace ++
                 [Sent.sendUnicodeText out, Sent.sendCharacter c]
               suppress := true } ∧
      1 ≤ st.inputBuffer.length ∧
      feed order { enabled := true, inputBuffer := [], lastBengaliOutput := [] }
          ['k', 'a', ' '] =
        some ({ enabled := true, inputBuffer := [], lastBengaliOutput := [] },
          [{ state := { enabled := true, inputBuffer := ['k'], lastBengaliOutput := [] }
             sent := [], suppress := false },
           { state := { enabled := true, inputBuffer := ['k', 'a'], lastBengaliOutput := [] }
             sent := [], suppress := false },
           { state := { enabled := true, inputBuffer := [], lastBengaliOutput := [] }
             sent := [Sent.sendBackspace, Sent.sendBackspace,
               Sent.sendUnicodeText ['ক', 'া'], Sent.sendCharacter ' ']
             suppress := true }]) := by
  refine ⟨?_, List.length_pos.2 hb, ?_⟩
  · rw [processCharacter_boundary order st c hc out hconv, if_pos ⟨hb, hne, hdiff⟩]
  · have hka : ConvertText bengaliKeyboard order ['k', 'a'] = some ['ক', 'া'] :=
      ConvertText_eval order ho "ka".toList _ (by decide!)
    have h3 := processCharacter_boundary order ⟨true, ['k', 'a'], []⟩ ' ' (Or.inl rfl) _ hka
    rw [if_pos (by decide)] at h3
    have h1 : processCharacter order ⟨true, [], []⟩ 'k' = some ⟨⟨true, ['k'], []⟩, [], false⟩ :=
      processCharacter_valid order _ 'k' (by decide) (by decide) (by decide)
    have h2 : processCharacter order ⟨true, ['k'], []⟩ 'a' =
        some ⟨⟨true, ['k', 'a'], []⟩, [], false⟩ :=
      processCharacter_valid order _ 'a' (by decide) (by decide) (by decide)
    simp only [feed, h1, h2, h3]
    rfl

theorem replace_on_boundary_witness :
    Enumerates bengaliKeyboard (sourceOrder bengaliKeyboard) ∧
      ConvertText bengaliKeyboard (sourceOrder bengaliKeyboard) "kha".toList
        = some ['খ', 'া'] ∧
      processCharacter (sourceOrder bengaliKeyboard)
          { enabled := true, inputBuffer := "kha".toList, lastBengaliOutput := [] } '\n' =
        some { state := { enabled := true, inputBuffer := [], lastBengaliOutput := [] }
               sent := [Sent.sendBackspace, Sent.sendBackspace, Sent.sendBackspace,
                 Sent.sendUnicodeText ['খ', 'া'], Sent.sendCharacter '\n']
               suppress := true } :=
  have hconv : ConvertText bengaliKeyboard (sourceOrder bengaliKeyboard) "kha".toList
      = some ['খ', 'া'] := ConvertText_eval _ (enumerates_sourceOrder _) _ _ (by decide!)
  ⟨enumerates_sourceOrder _, hconv,
    (replace_on_boundary (sourceOrder bengaliKeyboard) (enumerates_sourceOrder _)
      { enabled := true, inputBuffer := "kha".toList, lastBengaliOutput := [] } '\n'
      ['খ', 'া'] (by decide) (Or.inr (Or.inl rfl)) hconv (by decide) (by decide)).1⟩

/-- C10: a boundary character always ends the word. For every session state, every
enumeration order and every boundary character `c` among space, newline and tab,
`processCharacter(c)` returns and leaves the buffer empty, whether or not it injected a
replacement; and when the buffer was already empty, or `ConvertText(buffer)` equals the
buffer, it returns `false` and makes no injection call. -/
theorem boundary_ends_word (order : Nat → GoMap BengaliChar) (st : KeyboardState) (c : Char)
    (hc : c = ' ' ∨ c = '\n' ∨ c = '\t') :
    (∃ o, processCharacter order st c = some o ∧ o.state.inputBuffer = [] ∧
        o.state.enabled = st.enabled) ∧
      ((st.inputBuffer = [] ∨
          ConvertText bengaliKeyboard order st.inputBuffer = some st.inputBuffer) →
        processCharacter order st c =
          some { state := { enabled := st.enabled, inputBuffer := [],
                            lastBengaliOutput := [] }
                 sent := [], suppress := false }) := by
  obtain ⟨out, hout⟩ := ConvertText_total bengaliKeyboard order st.inputBuffer
  have hp := processCharacter_boundary order st c hc out hout
  constructor
  · by_cases hcond : st.inputBuffer ≠ [] ∧ out ≠ [] ∧ out ≠ st.inputBuffer
    · rw [if_pos hcond] at hp
      exact ⟨_, hp, rfl, rfl⟩
    · rw [if_neg hcond] at hp
      exact ⟨_, hp, rfl, rfl⟩
  · intro hcase
    have hcond : ¬ (st.inputBuffer ≠ [] ∧ out ≠ [] ∧ out ≠ st.inputBuffer) := by
      rintro ⟨h1, _, h3⟩
      rcases hcase with h | h
      · exact h1 h
      · rw [hout] at h
        exact h3 (Option.some.inj h)
    rw [hp, if_neg hcond]

theorem boundary_ends_word_witness :
    processCharacter (sourceOrder bengaliKeyboard)
        { enabled := true, inputBuffer := "qx".toList, lastBengaliOutput := [] } '\t' =
      some { state := { enabled := true, inputBuffer := [], lastBengaliOutput := [] }
             sent := [], suppress := false } :=
  (boundary_ends_word (sourceOrder bengaliKeyboard)
    { enabled := true, inputBuffer := "qx".toList, lastBengaliOutput := [] } '\t'
    (Or.inr (Or.inr rfl))).2
    (Or.inr (ConvertText_eval _ (enumerates_sourceOrder _) _ _ (by decide!)))

/-! ## Character classes -/

theorem Char_le_iff (a b : Char) : a ≤ b ↔ a.toNat ≤ b.toNat := Iff.rfl

/-- Every character accepted by `isValidInputChar` is an ASCII character. -/
theorem isValidInputChar_ascii (ch : Char) (h : isValidInputChar ch = true) :
    ch.toNat < 128 := by
  unfold isValidInputChar at h
  rw [decide_eq_true_eq] at h
  simp only [ge_iff_le, Char_le_iff] at h
  rcases h with h | h | h | h | h | h | h
  · have : 'z'.toNat = 122 := rfl
    omega
  · have : 'Z'.toNat = 90 := rfl
    omega
  · have : '9'.toNat = 57 := rfl
    omega
  all_goals (rw [h]; decide)

theorem isValidInputChar_ne_backspace (ch : Char) (h : isValidInputChar ch = true) :
    ch ≠ '\x08' := by
  intro hc
  rw [hc] at h
  exact absurd h (by decide)

theorem isValidInputChar_not_boundary (ch : Char) (h : isValidInputChar ch = true) :
    ¬ (ch = ' ' ∨ ch = '\n' ∨ ch = '\t') := by
  rintro (hc | hc | hc) <;> rw [hc] at h <;> exact absurd h (by decide)

/-- A code point outside ASCII is neither backspace, nor a boundary character, nor accepted by
`isValidInputChar`. -/
theorem non_ascii_is_invalid (ch : Char) (h : 128 ≤ ch.toNat) :
    ch ≠ '\x08' ∧ ¬ (ch = ' ' ∨ ch = '\n' ∨ ch = '\t') ∧ isValidInputChar ch = false := by
  refine ⟨?_, ?_, ?_⟩
  · intro hc
    rw [hc] at h
    exact absurd h (by decide)
  · rintro (hc | hc | hc) <;> rw [hc] at h <;> exact absurd h (by decide)
  · cases hv : isValidInputChar ch with
    | false => rfl
    | true =>
      have := isValidInputChar_ascii ch hv
      omega

/-! ## The other branches of `processCharacter` -/

theorem processCharacter_invalid (order : Nat → GoMap BengaliChar) (st : KeyboardState)
    (ch : Char) (h1 : ch ≠ '\x08') (h2 : ¬ (ch = ' ' ∨ ch = '\n' ∨ ch = '\t'))
    (h3 : isValidInputChar ch = false) :
    processCharacter order st ch =
      if st.inputBuffer.length > 0 then some ⟨⟨st.enabled, [], []⟩, [], false⟩
      else some ⟨st, [], false⟩ := by
  unfold processCharacter
  rw [if_neg h1, if_neg h2, if_neg (by rw [h3]; decide)]

theorem processCharacter_backspace (order : Nat → GoMap BengaliChar) (st : KeyboardState) :
    processCharacter order st '\x08' =
      some ⟨⟨st.enabled, st.inputBuffer.take (st.inputBuffer.length - 1),
        st.lastBengaliOutput⟩, [], false⟩ := by
  unfold processCharacter
  rw [if_pos rfl]
  by_cases h : st.inputBuffer.length > 0
  · rw [if_pos h]
  · rw [if_neg h]
    have h0 : st.inputBuffer = [] := List.length_eq_zero.1 (by omega)
    cases st with
    | mk en buf last =>
      simp only at h0
      subst h0
      rfl

/-- The characters accepted by `isValidInputChar` are letters, digits and four punctuation
characters. -/
theorem isValidInputChar_classes (ch : Char) (h : isValidInputChar ch = true) :
    ch.isAlpha = true ∨ ch.isDigit = true ∨ ch = '.' ∨ ch = ':' ∨ ch = '$' ∨ ch = '_' := by
  unfold isValidInputChar at h
  rw [decide_eq_true_eq] at h
  rcases h with h | h | h | h
  · left
    simp only [Char.isAlpha, Char.isLower, Bool.or_eq_true, Bool.and_eq_true, decide_eq_true_eq]
    right
    exact h
  · left
    simp only [Char.isAlpha, Char.isUpper, Bool.or_eq_true, Bool.and_eq_true, decide_eq_true_eq]
    left
    exact h
  · right; left
    simp only [Char.isDigit, Bool.and_eq_true, decide_eq_true_eq]
    exact h
  · right; right
    exact h

/-- C11: an invalid character resets the word. For every session state and every character
`ch` that is not backspace, not a boundary character and not accepted by `isValidInputChar`,
`processCharacter(ch)` returns, returns `false`, makes no injection call, keeps the `enabled`
flag and leaves the buffer empty; a boundary character delivered next returns `false` and
makes no injection call either. Every code point outside ASCII is such a character. Feeding
`k`, `a`, `@` and a space passes all four characters through. -/
theorem invalid_character_resets (order order2 : Nat → GoMap BengaliChar)
    (st : KeyboardState) (ch c x : Char) (h1 : ch ≠ '\x08')
    (h2 : ¬ (ch = ' ' ∨ ch = '\n' ∨ ch = '\t')) (h3 : isValidInputChar ch = false)
    (hc : c = ' ' ∨ c = '\n' ∨ c = '\t') :
    (∃ o, processCharacter order st ch = some o ∧ o.state.inputBuffer = [] ∧
        o.state.enabled = st.enabled ∧ o.sent = [] ∧ o.suppress = false ∧
        processCharacter order2 o.state c =
          some { state := { enabled := st.enabled, inputBuffer := [],
                            lastBengaliOutput := [] }
                 sent := [], suppress := false }) ∧
      (128 ≤ x.toNat →
        x ≠ '\x08' ∧ ¬ (x = ' ' ∨ x = '\n' ∨ x = '\t') ∧ isValidInputChar x = false) ∧
      feed order { enabled := true, inputBuffer := [], lastBengaliOutput := [] }
          ['k', 'a', '@', ' '] =
        some ({ enabled := true, inputBuffer := [], lastBengaliOutput := [] },
          [{ state := { enabled := true, inputBuffer := ['k'], lastBengaliOutput := [] }
             sent := [], suppress := false },
           { state := { enabled := true, inputBuffer := ['k', 'a'], lastBengaliOutput := [] }
             sent := [], suppress := false },
           { state := { enabled := true, inputBuffer := [], lastBengaliOutput := [] }
             sent := [], suppress := false },
           { state := { enabled := true, inputBuffer := [], lastBengaliOutput := [] }
             sent := [], suppress := false }]) := by
  have hempty : ∀ (o2 : Nat → GoMap BengaliChar) (s : KeyboardState) (b : Char),
      (b = ' ' ∨ b = '\n' ∨ b = '\t') → s.inputBuffer = [] →
      processCharacter o2 s b = some ⟨⟨s.enabled, [], []⟩, [], false⟩ := by
    intro o2 s b hb hs
    unfold processCharacter
    rw [if_neg (boundary_ne_backspace b hb), if_pos hb, if_neg (by rw [hs]; decide)]
  refine ⟨?_, non_ascii_is_invalid x, ?_⟩
  · have hp := processCharacter_invalid order st ch h1 h2 h3
    by_cases hlen : st.inputBuffer.length > 0
    · rw [if_pos hlen] at hp
      exact ⟨_, hp, rfl, rfl, rfl, rfl, hempty order2 _ c hc rfl⟩
    · rw [if_neg hlen] at hp
      have h0 : st.inputBuffer = [] := List.length_eq_zero.1 (by omega)
      exact ⟨_, hp, h0, rfl, rfl, rfl, hempty order2 st c hc h0⟩
  · have s1 : processCharacter order ⟨true, [], []⟩ 'k' = some ⟨⟨true, ['k'], []⟩, [], false⟩ :=
      processCharacter_valid order _ 'k' (by decide) (by decide) (by decide)
    have s2 : processCharacter order ⟨true, ['k'], []⟩ 'a' =
        some ⟨⟨true, ['k', 'a'], []⟩, [], false⟩ :=
      processCharacter_valid order _ 'a' (by decide) (by decide) (by decide)
    have s3 : processCharacter order ⟨true, ['k', 'a'], []⟩ '@' =
        some ⟨⟨true, [], []⟩, [], false⟩ := by
      rw [processCharacter_invalid order _ '@' (by decide) (by decide) (by decide)]
      rfl
    have s4 : processCharacter order ⟨true, [], []⟩ ' ' = some ⟨⟨true, [], []⟩, [], false⟩ :=
      hempty order _ ' ' (Or.inl rfl) rfl
    simp only [feed, s1, s2, s3, s4]

theorem invalid_character_resets_witness :
    (∃ o, processCharacter (sourceOrder bengaliKeyboard)
          { enabled := true, inputBuffer := ['k', 'a'], lastBengaliOutput := [] } 'é' = some o ∧
        o.state.inputBuffer = [] ∧ o.state.enabled = true ∧ o.sent = [] ∧
        o.suppress = false ∧
        processCharacter (sourceOrder bengaliKeyboard) o.state '\n' =
          some { state := { enabled := true, inputBuffer := [], lastBengaliOutput := [] }
                 sent := [], suppress := false }) ∧
      ('é' ≠ '\x08' ∧ ¬ ('é' = ' ' ∨ 'é' = '\n' ∨ 'é' = '\t') ∧
        isValidInputChar 'é' = false) :=
  have hw := invalid_character_resets (sourceOrder bengaliKeyboard)
    (sourceOrder bengaliKeyboard)
    { enabled := true, inputBuffer := ['k', 'a'], lastBengaliOutput := [] } 'é' '\n' 'é'
    (by decide) (by decide) (by decide) (Or.inr (Or.inl rfl))
  ⟨hw.1, hw.2.1 (by decide)⟩

/-- C12: backspace. For every session state `processCharacter('\b')` returns `false`, makes
no injection call and keeps the `enabled` flag; a non-empty buffer `pre ++ [x]` becomes
`pre`, an empty buffer stays empty. After `k`, `a`, `t` and a backspace the buffer is `ka`,
and a following space sends two backspaces, the text `কা` and the space. -/
theorem backspace_removes_last (order : Nat → GoMap BengaliChar)
    (ho : Enumerates bengaliKeyboard order) (st : KeyboardState) (pre : GoString)
    (x : Char) :
    (∃ o, processCharacter order st '\x08' = some o ∧ o.suppress = false ∧ o.sent = [] ∧
        o.state.enabled = st.enabled ∧
        (st.inputBuffer = pre ++ [x] → o.state.inputBuffer = pre) ∧
        (st.inputBuffer = [] → o.state.inputBuffer = [])) ∧
      feed order { enabled := true, inputBuffer := [], lastBengaliOutput := [] }
          ['k', 'a', 't', '\x08', ' '] =
        some ({ enabled := true, inputBuffer := [], lastBengaliOutput := [] },
          [{ state := { enabled := true, inputBuffer := ['k'], lastBengaliOutput := [] }
             sent := [], suppress := false },
           { state := { enabled := true, inputBuffer := ['k', 'a'], lastBengaliOutput := [] }
             sent := [], suppress := false },
           { state := { enabled := true, inputBuffer := ['k', 'a', 't'],
                        lastBengaliOutput := [] }
             sent := [], suppress := false },
           { state := { enabled := true, inputBuffer := ['k', 'a'], lastBengaliOutput := [] }
             sent := [], suppress := false },
           { state := { enabled := true, inputBuffer := [], lastBengaliOutput := [] }
             sent := [Sent.sendBackspace, Sent.sendBackspace,
               Sent.sendUnicodeText ['ক', 'া'], Sent.sendCharacter ' ']
             suppress := true }]) := by
  constructor
  · refine ⟨_, processCharacter_backspace order st, rfl, rfl, rfl, ?_, ?_⟩
    · intro hb
      show st.inputBuffer.take (st.inputBuffer.length - 1) = pre
      rw [hb]
      simp
    · intro hb
      show st.inputBuffer.take (st.inputBuffer.length - 1) = []
      rw [hb]
      rfl
  · have hka : ConvertText bengaliKeyboard order ['k', 'a'] = some ['ক', 'া'] :=
      ConvertText_eval order ho "ka".toList _ (by decide!)
    have s1 : processCharacter order ⟨true, [], []⟩ 'k' = some ⟨⟨true, ['k'], []⟩, [], false⟩ :=
      processCharacter_valid order _ 'k' (by decide) (by decide) (by decide)
    have s2 : processCharacter order ⟨true, ['k'], []⟩ 'a' =
        some ⟨⟨true, ['k', 'a'], []⟩, [], false⟩ :=
      processCharacter_valid order _ 'a' (by decide) (by decide) (by decide)
    have s3 : processCharacter order ⟨true, ['k', 'a'], []⟩ 't' =
        some ⟨⟨true, ['k', 'a', 't'], []⟩, [], false⟩ :=
      processCharacter_valid order _ 't' (by decide) (by decide) (by decide)
    have s4 : processCharacter order ⟨true, ['k', 'a', 't'], []⟩ '\x08' =
        some ⟨⟨true, ['k', 'a'], []⟩, [], false⟩ := processCharacter_backspace order _
    have s5 := processCharacter_boundary order ⟨true, ['k', 'a'], []⟩ ' ' (Or.inl rfl) _ hka
    rw [if_pos (by decide)] at s5
    simp only [feed, s1, s2, s3, s4, s5]
    rfl

theorem backspace_removes_last_witness :
    Enumerates bengaliKeyboard (sourceOrder bengaliKeyboard) ∧
      ∃ o, processCharacter (sourceOrder bengaliKeyboard)
          { enabled := true, inputBuffer := ['k', 'a', 't'], lastBengaliOutput := [] } '\x08'
            = some o ∧
        o.suppress = false ∧ o.sent = [] ∧ o.state.inputBuffer = ['k', 'a'] :=
  have hw := (backspace_removes_last (sourceOrder bengaliKeyboard)
    (enumerates_sourceOrder _)
    { enabled := true, inputBuffer := ['k', 'a', 't'], lastBengaliOutput := [] }
    ['k', 'a'] 't').1
  ⟨enumerates_sourceOrder _, hw.elim (fun o h => ⟨o, h.1, h.2.1, h.2.2.1, h.2.2.2.2.1 rfl⟩)⟩

/-- C13: valid input character. For every session state with buffer `b` and every character
`ch` accepted by `isValidInputChar` (an ASCII letter, a digit, or one of `.`, `:`, `$`, `_`),
`processCharacter(ch)` returns `false`, makes no injection call, leaves the `enabled` flag
unchanged, and the new buffer is `b` with `ch` appended. -/
theorem valid_character_appends (order : Nat → GoMap BengaliChar) (st : KeyboardState)
    (ch : Char) (hv : isValidInputChar ch = true) :
    processCharacter order st ch =
        some { state := { enabled := st.enabled, inputBuffer := st.inputBuffer ++ [ch],
                          lastBengaliOutput := st.lastBengaliOutput }
               sent := [], suppress := false } ∧
      ch.toNat < 128 ∧
      (ch.isAlpha = true ∨ ch.isDigit = true ∨ ch = '.' ∨ ch = ':' ∨ ch = '$' ∨ ch = '_') :=
  ⟨processCharacter_valid order st ch (isValidInputChar_ne_backspace ch hv)
      (isValidInputChar_not_boundary ch hv) hv,
    isValidInputChar_ascii ch hv, isValidInputChar_classes ch hv⟩

theorem valid_character_appends_witness :
    isValidInputChar '$' = true ∧
      processCharacter (sourceOrder bengaliKeyboard)
          { enabled := true, inputBuffer := ['k'], lastBengaliOutput := [] } '$' =
        some { state := { enabled := true, inputBuffer := ['k', '$'], lastBengaliOutput := [] }
               sent := [], suppress := false } :=
  ⟨by decide, (valid_character_appends (sourceOrder bengaliKeyboard)
    { enabled := true, inputBuffer := ['k'], lastBengaliOutput := [] } '$' (by decide)).1⟩

/-! ## Toggling and the hook -/

/-- C14: toggle reset. For every session state `toggleKeyboard` negates the `enabled` flag and
leaves the buffer empty, whatever the buffer held and whichever way the flag flips; the hook
call that handles the toggle key does nothing else: it makes no injection call and swallows
the key. -/
theorem toggle_resets (order : Nat → GoMap BengaliChar) (st : KeyboardState)
    (ctrlPressed shiftPressed : Bool) (code : Int) (hcode : code ≥ 0) :
    (toggleKeyboard st).enabled = (!st.enabled) ∧
      (toggleKeyboard st).inputBuffer = [] ∧
      (toggleKeyboard st).lastBengaliOutput = [] ∧
      keyboardHookProc order st ctrlPressed shiftPressed code WM_KEYDOWN TOGGLE_KEY =
        some { state := toggleKeyboard st, sent := [], result := HookResult.suppressed } := by
  refine ⟨rfl, rfl, rfl, ?_⟩
  unfold keyboardHookProc
  rw [if_pos hcode, if_pos ⟨rfl, rfl⟩]

theorem toggle_resets_witness :
    (toggleKeyboard { enabled := true, inputBuffer := ['k', 'a'], lastBengaliOutput := [] }
        = { enabled := false, inputBuffer := [], lastBengaliOutput := [] }) ∧
      (toggleKeyboard { enabled := false, inputBuffer := ['k', 'a'], lastBengaliOutput := [] }
        = { enabled := true, inputBuffer := [], lastBengaliOutput := [] }) ∧
      keyboardHookProc (sourceOrder bengaliKeyboard)
          { enabled := true, inputBuffer := ['k', 'a'], lastBengaliOutput := [] }
          false false 0 WM_KEYDOWN TOGGLE_KEY =
        some { state := { enabled := false, inputBuffer := [], lastBengaliOutput := [] }
               sent := [], result := HookResult.suppressed } :=
  ⟨rfl, rfl, (toggle_resets (sourceOrder bengaliKeyboard)
    { enabled := true, inputBuffer := ['k', 'a'], lastBengaliOutput := [] }
    false false 0 (by decide)).2.2.2⟩

/-- C15: a disabled session is inert. When `enabled` is false, `keyboardHookProc` on any event
other than a key-down of the toggle key leaves the session state unchanged, makes no
injection call and passes the event on through `callNextHookEx`; no character is handed to
`processCharacter`, so nothing is converted. In particular the space key with
`enabled = false` is passed through whatever the buffer holds. -/
theorem disabled_is_inert (order : Nat → GoMap BengaliChar) (st : KeyboardState)
    (ctrlPressed shiftPressed : Bool) (code : Int) (wparam vkCode : Nat)
    (hen : st.enabled = false) (hkey : ¬ (wparam = WM_KEYDOWN ∧ vkCode = TOGGLE_KEY)) :
    keyboardHookProc order st ctrlPressed shiftPressed code wparam vkCode =
        some { state := st, sent := [], result := HookResult.callNextHookEx } ∧
      keyboardHookProc order st ctrlPressed shiftPressed code WM_KEYDOWN 0x20 =
        some { state := st, sent := [], result := HookResult.callNextHookEx } := by
  have hgen : ∀ (w v : Nat), ¬ (w = WM_KEYDOWN ∧ v = TOGGLE_KEY) →
      keyboardHookProc order st ctrlPressed shiftPressed code w v =
        some { state := st, sent := [], result := HookResult.callNextHookEx } := by
    intro w v hk
    unfold keyboardHookProc
    by_cases hcode : code ≥ 0
    · rw [if_pos hcode, if_neg hk]
      have hdis : ¬ (st.enabled = true ∧ w = WM_KEYDOWN) := by
        rw [hen]
        rintro ⟨h, _⟩
        exact absurd h (by decide)
      by_cases hctrl : ctrlPressed = true ∧ w = WM_KEYDOWN ∧
          v ∈ [0x43, 0x56, 0x41, 0x58, 0x5A, 0x59]
      · rw [if_pos hctrl]
      · rw [if_neg hctrl]
        simp only [hdis, if_false]
    · rw [if_neg hcode]
  exact ⟨hgen wparam vkCode hkey, hgen WM_KEYDOWN 0x20 (by decide)⟩

theorem disabled_is_inert_witness :
    keyboardHookProc (sourceOrder bengaliKeyboard)
        { enabled := false, inputBuffer := ['k', 'a'], lastBengaliOutput := [] }
        false false 0 WM_KEYDOWN 0x0D =
      some { state := { enabled := false, inputBuffer := ['k', 'a'], lastBengaliOutput := [] }
             sent := [], result := HookResult.callNextHookEx } :=
  (disabled_is_inert (sourceOrder bengaliKeyboard)
    { enabled := false, inputBuffer := ['k', 'a'], lastBengaliOutput := [] }
    false false 0 WM_KEYDOWN 0x0D rfl (by decide)).1

/-! ## Totality of the converter -/

/-- An iteration of the outer loop never moves the position beyond the end of the input. -/
theorem loopBody_le_length (bk : BengaliKeyboard) (l : GoMap BengaliChar) (chars : List Char)
    (i : Nat) (h : i < chars.length) (result : GoString) :
    (loopBody bk l chars i h result).1 ≤ chars.length := by
  rcases findLongest_spec l chars i with ⟨hinit, _⟩ | ⟨e, _, hm, hpos, hr, _⟩
  · rw [loopBody_of_none bk l chars i h result (by rw [hinit]; rfl)]
    exact h
  · rw [loopBody_fst bk l chars i h result (by rw [hr]; exact hpos), hr]
    exact hm.1

/-! ### Slices and indices are in range -/

theorem goSlice_of_le (s : List Char) (low n : Nat) (h : low + n ≤ s.length) :
    goSlice s low (low + n) = some ((s.drop low).take n) := by
  unfold goSlice
  rw [if_pos ⟨Nat.le_add_right low n, h⟩, Nat.add_sub_cancel_left]

theorem goSlice_out_of_range (s : List Char) (low high : Nat) (h : s.length < high) :
    goSlice s low high = none := by
  unfold goSlice
  rw [if_neg (fun hc => absurd hc.2 (by omega))]

theorem goIndex_of_lt (s : List Char) (i : Nat) (h : i < s.length) :
    goIndex s i = some (s.get ⟨i, h⟩) := by
  unfold goIndex
  rw [dif_pos h]

theorem goIndex_out_of_range (s : List Char) (i : Nat) (h : s.length ≤ i) :
    goIndex s i = none := by
  unfold goIndex
  rw [dif_neg (by omega)]

/-- The slice of the inner search is never out of range: the checked pass does not panic and
computes what `rangeBody` computes. -/
theorem rangeBodyChecked_eq (chars : List Char) (i : Nat) (cur : Longest)
    (e : GoString × BengaliChar) :
    rangeBodyChecked chars i cur e = some (rangeBody chars i cur e) := by
  unfold rangeBodyChecked rangeBody
  by_cases hle : i + e.1.length ≤ chars.length
  · simp only [hle, if_true, goSlice_of_le chars i e.1.length hle]
    split_ifs <;> rfl
  · simp only [hle, if_false]

theorem rangeChecked_eq (chars : List Char) (i : Nat) (l : GoMap BengaliChar) :
    ∀ cur : Longest, rangeChecked chars i l cur = some (l.foldl (rangeBody chars i) cur) := by
  induction l with
  | nil => intro cur; rfl
  | cons e t ih =>
    intro cur
    rw [rangeChecked, rangeBodyChecked_eq]
    exact ih _

theorem findLongestChecked_eq (l : GoMap BengaliChar) (chars : List Char) (i : Nat) :
    findLongestChecked l chars i = some (findLongest l chars i) :=
  rangeChecked_eq chars i l Longest.init

/-- The index of `endsWithConsonant` is never out of range. -/
theorem endsWithConsonantChecked_eq (text : GoString) :
    endsWithConsonantChecked text = some (endsWithConsonant text) := by
  unfold endsWithConsonantChecked endsWithConsonant
  by_cases h0 : text.length = 0
  · rw [if_pos h0, dif_pos h0]
  · rw [if_neg h0, dif_neg h0]
    simp only [goIndex_of_lt text (text.length - 1)
      (Nat.sub_lt (Nat.pos_of_ne_zero h0) Nat.one_pos)]

/-- Below `len(chars)` an iteration of the outer loop raises no panic and computes what
`loopBody` computes. -/
theorem loopBodyChecked_eq (bk : BengaliKeyboard) (l : GoMap BengaliChar) (chars : List Char)
    (i : Nat) (h : i < chars.length) (result : GoString) :
    loopBodyChecked bk l chars i result = some (loopBody bk l chars i h result) := by
  unfold loopBodyChecked loopBody
  simp only [findLongestChecked_eq, goIndex_of_lt chars i h, endsWithConsonantChecked_eq]
  by_cases hpos : (findLongest l chars i).longestLen > 0
  · simp only [hpos, if_true]
    by_cases hv : (findLongest l chars i).isVowel = true
    · simp only [hv, if_true]
      by_cases hlen : result.length > 0
      · simp only [hlen, if_true, true_and]
        by_cases hc : endsWithConsonant result = true
        · simp only [hc, if_true]
          by_cases ho : (findLongest l chars i).longestMatch = "o".toList
          · simp only [ho, if_true]
          · simp only [ho, if_false]
            cases bk.keymap.VowelDiacritics.get? (findLongest l chars i).longestMatch <;> rfl
        · simp only [hc, if_false]
          cases hb : endsWithConsonant result with
          | true => exact absurd hb hc
          | false => simp
      · simp only [hlen, if_false, false_and]
        simp
    · simp only [hv, if_false]
      simp
  · simp only [hpos, if_false]

/-- The checked loop ends as the loop does: it never panics. -/
theorem convertLoopChecked_eq (bk : BengaliKeyboard) (order : Nat → GoMap BengaliChar)
    (chars : List Char) :
    ∀ (fuel i : Nat) (result : GoString),
      convertLoopChecked bk order chars fuel i result =
        match convertLoop bk order chars fuel i result with
        | some out => Run.returned out
        | none => Run.unfinished := by
  intro fuel
  induction fuel with
  | zero =>
    intro i result
    unfold convertLoopChecked convertLoop
    split_ifs <;> rfl
  | succ n ih =>
    intro i result
    unfold convertLoopChecked convertLoop
    by_cases h : i < chars.length
    · simp only [h, if_true, dite_true, loopBodyChecked_eq bk (order i) chars i h result]
      exact ih _ _
    · simp only [h, if_false, dite_false]

theorem ConvertTextChecked_returns (bk : BengaliKeyboard) (order : Nat → GoMap BengaliChar)
    (w : GoString) :
    ∃ out, ConvertTextChecked bk order w = Run.returned out ∧
      ConvertText bk order w = some out := by
  obtain ⟨out, hout⟩ := ConvertText_total bk order w
  refine ⟨out, ?_, hout⟩
  unfold ConvertTextChecked
  unfold ConvertText at hout
  simp only at hout ⊢
  rw [convertLoopChecked_eq, hout]

/-- C16: totality of the converter. `ConvertText` returns a result for every input string,
the empty string included, whatever the order of the table visits: every pattern of the
table is non-empty, every iteration of the loop moves the position forward by at least one
and never beyond the end of the input. No slice or index is out of range: the run of
`ConvertText` in which the slice `chars[i : i+len(patternRunes)]` and the indices `chars[i]`
and `runes[len(runes)-1]` are checked, and panic when out of range, returns the same result
and never panics; so does each pass of the inner search at any position, each iteration of
the outer loop below `len(chars)`, and `endsWithConsonant` on any text. The checks are real:
a slice that ends beyond the input and an index at `len(chars)` do panic, and the inner
search skips the slice exactly then. -/
theorem ConvertText_terminates (order : Nat → GoMap BengaliChar) (w chars text : GoString)
    (i j : Nat) (h : i < chars.length) (result : GoString) (cur : Longest)
    (e : GoString × BengaliChar) (hne : text ≠ []) :
    (∃ out, ConvertText bengaliKeyboard order w = some out) ∧
      ConvertText bengaliKeyboard order [] = some [] ∧
      (∀ e2 ∈ bengaliKeyboard.keymap.Patterns, 0 < e2.1.length) ∧
      i < (loopBody bengaliKeyboard (order i) chars i h result).1 ∧
      (loopBody bengaliKeyboard (order i) chars i h result).1 ≤ chars.length ∧
      (¬ (i + e.1.length ≤ chars.length) → rangeBody chars i cur e = cur) ∧
      endsWithConsonant [] = false ∧
      endsWithConsonant text = isBengaliConsonant (text.getLast hne) ∧
      (∃ out, ConvertTextChecked bengaliKeyboard order w = Run.returned out ∧
        ConvertText bengaliKeyboard order w = some out) ∧
      rangeBodyChecked chars j cur e = some (rangeBody chars j cur e) ∧
      findLongestChecked (order j) chars j = some (findLongest (order j) chars j) ∧
      loopBodyChecked bengaliKeyboard (order i) chars i result =
        some (loopBody bengaliKeyboard (order i) chars i h result) ∧
      endsWithConsonantChecked result = some (endsWithConsonant result) ∧
      (chars.length < j + e.1.length → goSlice chars j (j + e.1.length) = none) ∧
      goIndex chars chars.length = none ∧
      goIndex ([] : List Char) (([] : List Char).length - 1) = none := by
  refine ⟨ConvertText_total _ _ _, rfl,
    fun e2 he2 => List.length_pos.2 (Patterns_keys_ne_nil e2 he2),
    (loopBody_advances _ _ _ _ h _).1, loopBody_le_length _ _ _ _ h _, ?_, rfl, ?_,
    ConvertTextChecked_returns _ _ _, rangeBodyChecked_eq _ _ _ _, findLongestChecked_eq _ _ _,
    loopBodyChecked_eq _ _ _ _ h _, endsWithConsonantChecked_eq _,
    goSlice_out_of_range _ _ _, goIndex_out_of_range _ _ (Nat.le_refl _), rfl⟩
  · intro hout
    rw [rangeBody_eq, if_neg (fun hc => hout hc.1.1)]
  · exact endsWithConsonant_of_getLast? text _ (List.getLast?_eq_getLast text hne)

theorem ConvertText_terminates_witness :
    (∃ out, ConvertText bengaliKeyboard (sourceOrder bengaliKeyboard) "q@k".toList = some out) ∧
      0 < (loopBody bengaliKeyboard (sourceOrder bengaliKeyboard 0) "kh".toList 0
        (by decide) []).1 ∧
      (loopBody bengaliKeyboard (sourceOrder bengaliKeyboard 0) "kh".toList 0
        (by decide) []).1 ≤ 2 ∧
      rangeBody "kh".toList 1 Longest.init ("kh".toList, ⟨"খ".toList, false⟩) = Longest.init ∧
      endsWithConsonant ['ক', 'া'] = false ∧
      (∃ out, ConvertTextChecked bengaliKeyboard (sourceOrder bengaliKeyboard) "q@k".toList
        = Run.returned out) ∧
      rangeBodyChecked "kh".toList 1 Longest.init ("kh".toList, ⟨"খ".toList, false⟩)
        = some Longest.init ∧
      goSlice "kh".toList 1 3 = none ∧
      goSlice "kh".toList 0 2 = some ['k', 'h'] :=
  have hw := ConvertText_terminates (sourceOrder bengaliKeyboard) "q@k".toList "kh".toList
    ['ক', 'া'] 0 1 (by decide) [] Longest.init ("kh".toList, ⟨"খ".toList, false⟩) (by decide)
  have hw1 := ConvertText_terminates (sourceOrder bengaliKeyboard) "q@k".toList "kh".toList
    ['ক', 'া'] 1 1 (by decide) [] Longest.init ("kh".toList, ⟨"খ".toList, false⟩) (by decide)
  have hrb : rangeBody "kh".toList 1 Longest.init ("kh".toList, ⟨"খ".toList, false⟩)
      = Longest.init := hw1.2.2.2.2.2.1 (by decide)
  ⟨hw.1, hw.2.2.2.1, hw.2.2.2.2.1, hrb,
    hw.2.2.2.2.2.2.2.1.trans (by decide),
    hw.2.2.2.2.2.2.2.2.1.elim (fun out ho => ⟨out, ho.1⟩),
    hw.2.2.2.2.2.2.2.2.2.1.trans (congrArg some hrb),
    hw.2.2.2.2.2.2.2.2.2.2.2.2.2.1 (by decide), by decide⟩

/-! ## The buffer invariant -/

/-- One call of `processCharacter` keeps every character of the buffer valid. -/
theorem processCharacter_keeps_valid (order : Nat → GoMap BengaliChar) (st : KeyboardState)
    (ch : Char) (o : Outcome) (hp : processCharacter order st ch = some o)
    (hst : ∀ c ∈ st.inputBuffer, isValidInputChar c = true) :
    ∀ c ∈ o.state.inputBuffer, isValidInputChar c = true := by
  by_cases h1 : ch = '\x08'
  · rw [h1, processCharacter_backspace] at hp
    rw [← Option.some.inj hp]
    intro c hc
    exact hst c (List.mem_of_mem_take hc)
  · by_cases h2 : ch = ' ' ∨ ch = '\n' ∨ ch = '\t'
    · obtain ⟨out, hout⟩ := ConvertText_total bengaliKeyboard order st.inputBuffer
      rw [processCharacter_boundary order st ch h2 out hout] at hp
      split_ifs at hp <;>
        (rw [← Option.some.inj hp]; intro c hc; exact absurd hc (List.not_mem_nil c))
    · cases h3 : isValidInputChar ch with
      | true =>
        rw [processCharacter_valid order st ch h1 h2 h3] at hp
        rw [← Option.some.inj hp]
        intro c hc
        rcases List.mem_append.1 hc with hc | hc
        · exact hst c hc
        · rw [List.mem_singleton.1 hc]
          exact h3
      | false =>
        rw [processCharacter_invalid order st ch h1 h2 h3] at hp
        split_ifs at hp
        · rw [← Option.some.inj hp]
          intro c hc
          exact absurd hc (List.not_mem_nil c)
        · rw [← Option.some.inj hp]
          exact hst

theorem reachable_buffer_valid (st : KeyboardState) (hr : Reachable st) :
    ∀ c ∈ st.inputBuffer, isValidInputChar c = true := by
  induction hr with
  | start => intro c hc; exact absurd hc (List.not_mem_nil c)
  | toggle st _ _ => intro c hc; exact absurd hc (List.not_mem_nil c)
  | process st order ch o _ hp ih => exact processCharacter_keeps_valid order st ch o hp ih

/-- C17: buffer invariant. In every session state reachable from the state at program start
by a sequence of calls of `toggleKeyboard` and `processCharacter`, every character of the
buffer is accepted by `isValidInputChar`; so it is an ASCII character and is neither
backspace nor a boundary character. -/
theorem buffer_invariant (st : KeyboardState) (hr : Reachable st) (c : Char)
    (hc : c ∈ st.inputBuffer) :
    isValidInputChar c = true ∧ c.toNat < 128 ∧ c ≠ '\x08' ∧
      ¬ (c = ' ' ∨ c = '\n' ∨ c = '\t') :=
  have hv := reachable_buffer_valid st hr c hc
  ⟨hv, isValidInputChar_ascii c hv, isValidInputChar_ne_backspace c hv,
    isValidInputChar_not_boundary c hv⟩

theorem buffer_invariant_witness :
    Reachable { enabled := true, inputBuffer := ['k', '$'], lastBengaliOutput := [] } ∧
      isValidInputChar '$' = true :=
  have h0 : Reachable (toggleKeyboard keyboardState) := Reachable.toggle _ Reachable.start
  have h1 : Reachable { enabled := true, inputBuffer := ['k'], lastBengaliOutput := [] } :=
    Reachable.process _ (sourceOrder bengaliKeyboard) 'k' _ h0
      (processCharacter_valid _ _ 'k' (by decide) (by decide) (by decide))
  have h2 : Reachable { enabled := true, inputBuffer := ['k', '$'], lastBengaliOutput := [] } :=
    Reachable.process _ (sourceOrder bengaliKeyboard) '$' _ h1
      (processCharacter_valid _ _ '$' (by decide) (by decide) (by decide))
  ⟨h2, (buffer_invariant _ h2 '$' (by decide)).1⟩

/-! ## The letters written with a nukta -/

/-- C18, the code at the failing input. The table writes the letters of `R`, `Rh`, `y` and
`yo` as a base letter followed by the nukta U+09BC, while `isBengaliConsonant` tests the
one-code-point forms U+09DC, U+09DD and U+09DF; so `endsWithConsonant` is false on the script
of these four patterns (it is true on U+09CE, the script of `.t`), and `ConvertText("Re")` is
the script of `R` followed by the independent vowel U+098F, not by the diacritic U+09C7. -/
theorem nukta_letters_not_recognised :
    bengaliKeyboard.keymap.Patterns.get? "R".toList
        = some ⟨['\u09A1', '\u09BC'], false⟩ ∧
      bengaliKeyboard.keymap.Patterns.get? "Rh".toList
        = some ⟨['\u09A2', '\u09BC'], false⟩ ∧
      bengaliKeyboard.keymap.Patterns.get? "y".toList
        = some ⟨['\u09AF', '\u09BC'], false⟩ ∧
      bengaliKeyboard.keymap.Patterns.get? "yo".toList
        = some ⟨['\u09AF', '\u09BC'], false⟩ ∧
      bengaliKeyboard.keymap.Patterns.get? ".t".toList = some ⟨['\u09CE'], false⟩ ∧
      endsWithConsonant ['\u09A1', '\u09BC'] = false ∧
      endsWithConsonant ['\u09A2', '\u09BC'] = false ∧
      endsWithConsonant ['\u09AF', '\u09BC'] = false ∧
      endsWithConsonant ['\u09CE'] = true ∧
      isBengaliConsonant '\u09DC' = true ∧
      isBengaliConsonant '\u09BC' = false ∧
      bengaliKeyboard.keymap.VowelDiacritics.get? "e".toList = some ['\u09C7'] ∧
      ConvertText bengaliKeyboard (sourceOrder bengaliKeyboard) "Re".toList
        = some ['\u09A1', '\u09BC', '\u098F'] ∧
      ConvertText bengaliKeyboard (sourceOrder bengaliKeyboard) "Re".toList
        ≠ some ['\u09A1', '\u09BC', '\u09C7'] := by
  have hre : ConvertText bengaliKeyboard (sourceOrder bengaliKeyboard) "Re".toList
      = some ['\u09A1', '\u09BC', '\u098F'] :=
    ConvertText_eval _ (enumerates_sourceOrder _) _ _ (by decide!)
  refine ⟨by rw [Patterns_eq]; decide!, by rw [Patterns_eq]; decide!,
    by rw [Patterns_eq]; decide!, by rw [Patterns_eq]; decide!,
    by rw [Patterns_eq]; decide!, by decide, by decide, by decide, by decide, by decide,
    by decide, by rw [VowelDiacritics_eq]; decide!, hre, ?_⟩
  rw [hre]
  decide

/-! ## A vowel typed after a consonant -/

theorem Patterns_length_le :
    ∀ e ∈ bengaliKeyboard.keymap.Patterns, e.1.length ≤ 4 := by
  rw [Patterns_eq]
  decide!

theorem Patterns_vowel_keys :
    ∀ e ∈ bengaliKeyboard.keymap.Patterns, e.2.IsVowel = true → e.1 ≠ ['o'] →
      e.1 ∈ [['a'], ['i'], ['I'], ['u'], ['U'], ['r', 'r', 'i'], ['e'], ['o', 'i'], ['O'],
        ['o', 'u']] := by
  rw [Patterns_eq]
  decide!

/-- The only way to split a pattern of the table into a pattern whose script ends in a
consonant followed by the beginning of a vowel pattern other than `o` is `c ++ "r"`, the
vowel being `rri`. -/
theorem Patterns_split :
    ∀ e ∈ bengaliKeyboard.keymap.Patterns, ∀ n ∈ [1, 2, 3], n < e.1.length →
      ∀ v ∈ [['a'], ['i'], ['I'], ['u'], ['U'], ['r', 'r', 'i'], ['e'], ['o', 'i'], ['O'],
        ['o', 'u']],
      e.1.drop n = v.take (e.1.length - n) →
      ∀ b ∈ bengaliKeyboard.keymap.Patterns.get? (e.1.take n),
        endsWithConsonant b.Bengali = true → v = ['r', 'r', 'i'] ∧ e.1.drop n = ['r'] := by
  rw [Patterns_eq]
  decide!

/-- A vowel pattern other than `o` typed after a pattern whose script ends in a consonant is
written as its diacritic, unless the table has a longer pattern that starts the word. -/
theorem ConvertText_consonant_vowel (order : Nat → GoMap BengaliChar)
    (ho : Enumerates bengaliKeyboard order) (c v : GoString) (b bv : BengaliChar)
    (d : GoString)
    (hc : bengaliKeyboard.keymap.Patterns.get? c = some b)
    (hcons : endsWithConsonant b.Bengali = true)
    (hv : bengaliKeyboard.keymap.Patterns.get? v = some bv) (hvow : bv.IsVowel = true)
    (hne : v ≠ "o".toList)
    (hd : bengaliKeyboard.keymap.VowelDiacritics.get? v = some d)
    (hrri : v = "rri".toList → bengaliKeyboard.keymap.Patterns.get? (c ++ ['r']) = none) :
    ConvertText bengaliKeyboard order (c ++ v) = some (b.Bengali ++ d) := by
  have hcm := GoMap.mem_of_get? _ _ _ hc
  have hvm := GoMap.mem_of_get? _ _ _ hv
  have hcpos : 0 < c.length := List.length_pos.2 (Patterns_keys_ne_nil _ hcm)
  have hvpos : 0 < v.length := List.length_pos.2 (Patterns_keys_ne_nil _ hvm)
  have hmax : ∀ e ∈ bengaliKeyboard.keymap.Patterns,
      matchesAt (c ++ v) 0 e.1 → e.1.length ≤ c.length := by
    intro e he hm
    by_cases hle : e.1.length ≤ c.length
    · exact hle
    · exfalso
      have hm0 := (matchesAt_zero_iff _ _).1 hm
      rw [List.take_append_eq_append_take, List.take_of_length_le (by omega)] at hm0
      obtain ⟨k, hk⟩ : ∃ k, k = e.1.length - c.length := ⟨_, rfl⟩
      rw [← hk] at hm0
      have htake : e.1.take c.length = c := by rw [← hm0, List.take_left]
      have hdropk : e.1.drop c.length = v.take k := by rw [← hm0, List.drop_left]
      have hdrop : e.1.drop c.length = v.take (e.1.length - c.length) := by
        rw [← hk]
        exact hdropk
      have h4 := Patterns_length_le e he
      have hn : c.length ∈ [1, 2, 3] := by
        simp only [List.mem_cons, List.mem_singleton, List.not_mem_nil, or_false]
        omega
      obtain ⟨hvr, hdr⟩ := Patterns_split e he c.length hn (by omega) v
        (Patterns_vowel_keys (v, bv) hvm hvow hne) hdrop b
        (by rw [htake]; exact hc) hcons
      have heq : e.1 = c ++ ['r'] := by
        rw [← List.take_append_drop c.length e.1, htake, hdr]
      have hget := GoMap.get?_of_mem _ nodup_keys_Patterns e.1 e.2 he
      rw [heq, hrri hvr] at hget
      exact absurd hget (by simp)
  have hlt : c.length < (c ++ v).length := by
    simp only [List.length_append]
    omega
  rw [ConvertText_two_patterns order ho c v b bv hcm hvm hmax hlt]
  have hfr := findLongest_append_right order ho c v bv hvm c.length
  have hres : b.Bengali.length > 0 ∧ endsWithConsonant b.Bengali = true := by
    refine ⟨?_, hcons⟩
    cases hb : b.Bengali with
    | nil => rw [hb] at hcons; exact absurd hcons (by decide)
    | cons a t => exact Nat.succ_pos _
  rw [loopBody_of_vowel_diacritic _ _ _ _ _ _ (by rw [hfr]; exact hvpos)
    (by rw [hfr]; exact hvow) hres (by rw [hfr]; exact hne) d (by rw [hfr]; exact hd)]

/-- C19 as stated fails: `k` is a non-vowel pattern whose script `ক` ends in a consonant and
`rri` is a vowel pattern other than `o` with diacritic `ৃ`, but `ConvertText("krri")` is not
`কৃ`: the longest match at the start is `kr`, so the output is `ক্র` followed by `র` and
`ি`. -/
theorem diacritic_after_consonant_counterexample :
    ¬ ∀ (c v : GoString) (b bv : BengaliChar) (d : GoString),
      bengaliKeyboard.keymap.Patterns.get? c = some b → b.IsVowel = false →
      endsWithConsonant b.Bengali = true →
      bengaliKeyboard.keymap.Patterns.get? v = some bv → bv.IsVowel = true →
      v ≠ "o".toList →
      bengaliKeyboard.keymap.VowelDiacritics.get? v = some d →
      ConvertText bengaliKeyboard (sourceOrder bengaliKeyboard) (c ++ v)
        = some (b.Bengali ++ d) := by
  intro hall
  have h1 := hall "k".toList "rri".toList ⟨"ক".toList, false⟩ ⟨"ঋ".toList, true⟩ "ৃ".toList
    (by rw [Patterns_eq]; decide!) rfl (by decide) (by rw [Patterns_eq]; decide!) rfl
    (by decide) (by rw [VowelDiacritics_eq]; decide!)
  have h2 : ConvertText bengaliKeyboard (sourceOrder bengaliKeyboard)
      ("k".toList ++ "rri".toList) = some ['ক', '্', 'র', 'র', 'ি'] :=
    ConvertText_eval _ (enumerates_sourceOrder _) _ _ (by decide!)
  rw [h2] at h1
  exact absurd h1 (by decide)

/-- After a pattern `c ++ "r"` of the table, with `c` a pattern whose script ends in a
consonant, the rest `ri` of the vowel `rri` does not turn the output into the script of `c`
followed by the diacritic of `rri`. -/
theorem Patterns_r_then_ri :
    ∀ e ∈ assignedPatterns, e.1.getLast? = some 'r' →
      ∀ b ∈ GoMap.get? assignedPatterns e.1.dropLast, endsWithConsonant b.Bengali = true →
        ConvertText ⟨⟨assignedPatterns, assignedDiacritics⟩⟩
          (sourceOrder ⟨⟨assignedPatterns, assignedDiacritics⟩⟩) (e.1 ++ ['r', 'i'])
            ≠ some (b.Bengali ++ ['ৃ']) := by
  decide!

theorem ConvertText_consonant_rri (order : Nat → GoMap BengaliChar)
    (ho : Enumerates bengaliKeyboard order) (c : GoString) (b b2 : BengaliChar)
    (hc : bengaliKeyboard.keymap.Patterns.get? c = some b)
    (hcons : endsWithConsonant b.Bengali = true)
    (hcr : bengaliKeyboard.keymap.Patterns.get? (c ++ ['r']) = some b2) :
    ConvertText bengaliKeyboard order (c ++ ['r', 'r', 'i']) ≠ some (b.Bengali ++ ['ৃ']) := by
  have hmem := GoMap.mem_of_get? _ _ _ hcr
  rw [Patterns_eq] at hmem hc
  have h := Patterns_r_then_ri (c ++ ['r'], b2) hmem (List.getLast?_concat c) b
    (by rw [List.dropLast_concat]; exact hc) hcons
  rw [ConvertText_sourceOrder order ho, bengaliKeyboard_eq]
  have hl : c ++ ['r', 'r', 'i'] = (c ++ ['r']) ++ ['r', 'i'] := by simp
  rw [hl]
  exact h

/-- C19, amended. For every non-vowel pattern `c` whose script output ends in a code point for
which `isBengaliConsonant` holds, and every vowel pattern `v` other than `o`,
`ConvertText(c ++ v) = Patterns[c].Bengali ++ VowelDiacritics[v]` holds exactly when it is not
the case that `v` is `rri` and `c ++ "r"` is itself a pattern of the table (then the longest
match takes `c ++ "r"` first). For `c = k` and `v = a` this gives `কা`. -/
theorem diacritic_after_consonant (order : Nat → GoMap BengaliChar)
    (ho : Enumerates bengaliKeyboard order) (c v : GoString) (b bv : BengaliChar)
    (d : GoString)
    (hc : bengaliKeyboard.keymap.Patterns.get? c = some b) (_hnv : b.IsVowel = false)
    (hcons : endsWithConsonant b.Bengali = true)
    (hv : bengaliKeyboard.keymap.Patterns.get? v = some bv) (hvow : bv.IsVowel = true)
    (hne : v ≠ "o".toList)
    (hd : bengaliKeyboard.keymap.VowelDiacritics.get? v = some d) :
    (ConvertText bengaliKeyboard order (c ++ v) = some (b.Bengali ++ d) ↔
        (v = "rri".toList → bengaliKeyboard.keymap.Patterns.get? (c ++ ['r']) = none)) ∧
      ConvertText bengaliKeyboard order ("k".toList ++ "a".toList) = some ['ক', 'া'] := by
  refine ⟨⟨?_, ConvertText_consonant_vowel order ho c v b bv d hc hcons hv hvow hne hd⟩,
    ConvertText_eval order ho _ _ (by decide!)⟩
  intro heq hvr
  cases hcr : bengaliKeyboard.keymap.Patterns.get? (c ++ ['r']) with
  | none => rfl
  | some b2 =>
    exfalso
    have hd2 : d = ['ৃ'] := by
      rw [hvr, VowelDiacritics_eq] at hd
      have : GoMap.get? assignedDiacritics "rri".toList = some ['ৃ'] := by decide!
      rw [this] at hd
      exact (Option.some.inj hd).symm
    rw [hvr, hd2] at heq
    exact ConvertText_consonant_rri order ho c b b2 hc hcons hcr heq

theorem diacritic_after_consonant_witness :
    Enumerates bengaliKeyboard (sourceOrder bengaliKeyboard) ∧
      bengaliKeyboard.keymap.Patterns.get? ("kh".toList ++ ['r']) = none ∧
      ConvertText bengaliKeyboard (sourceOrder bengaliKeyboard) ("kh".toList ++ "rri".toList)
        = some ['খ', 'ৃ'] ∧
      ConvertText bengaliKeyboard (sourceOrder bengaliKeyboard) ("k".toList ++ "ou".toList)
        = some ['ক', 'ৌ'] :=
  have hnone : bengaliKeyboard.keymap.Patterns.get? ("kh".toList ++ ['r']) = none := by
    rw [Patterns_eq]; decide!
  ⟨enumerates_sourceOrder _, hnone,
    (diacritic_after_consonant _ (enumerates_sourceOrder _) "kh".toList "rri".toList
      ⟨['খ'], false⟩ ⟨['ঋ'], true⟩ ['ৃ'] (by rw [Patterns_eq]; decide!) rfl (by decide)
      (by rw [Patterns_eq]; decide!) rfl (by decide)
      (by rw [VowelDiacritics_eq]; decide!)).1.2 (fun _ => hnone),
    (diacritic_after_consonant _ (enumerates_sourceOrder _) "k".toList "ou".toList
      ⟨['ক'], false⟩ ⟨['ঔ'], true⟩ ['ৌ'] (by rw [Patterns_eq]; decide!) rfl (by decide)
      (by rw [Patterns_eq]; decide!) rfl (by decide)
      (by rw [VowelDiacritics_eq]; decide!)).1.2 (fun h => absurd h (by decide))⟩

/-! ## Converted words are never empty -/

theorem Patterns_Bengali_ne_nil :
    ∀ e ∈ bengaliKeyboard.keymap.Patterns, e.2.Bengali ≠ [] := by
  rw [Patterns_eq]
  decide!

/-- The first iteration of the outer loop writes at least one code point. -/
theorem loopBody_first_ne_nil (order : Nat → GoMap BengaliChar)
    (ho : Enumerates bengaliKeyboard order) (chars : List Char) (h : 0 < chars.length) :
    (loopBody bengaliKeyboard (order 0) chars 0 h []).2 ≠ [] := by
  by_cases hpos : 0 < (findLongest (order 0) chars 0).longestLen
  · obtain ⟨e, he, _, hfl, _⟩ := findLongest_selected order ho chars 0 hpos
    have hlen : 0 < e.1.length := by rw [hfl] at hpos; exact hpos
    rw [loopBody_first _ _ _ h e hfl hlen]
    exact Patterns_Bengali_ne_nil e he
  · rw [loopBody_of_none _ _ _ _ h _ (by omega)]
    simp

theorem ConvertText_ne_nil (order : Nat → GoMap BengaliChar)
    (ho : Enumerates bengaliKeyboard order) (w : GoString) (hw : w ≠ []) :
    ∃ out, ConvertText bengaliKeyboard order w = some out ∧ out ≠ [] := by
  have hlen : 0 < w.length := List.length_pos.2 hw
  obtain ⟨n, hn⟩ : ∃ n, w.length = n + 1 := ⟨w.length - 1, by omega⟩
  have hadv := (loopBody_advances bengaliKeyboard (order 0) w 0 hlen []).1
  obtain ⟨added, hadd⟩ := convertLoop_total bengaliKeyboard order w n
    (loopBody bengaliKeyboard (order 0) w 0 hlen []).1
    (loopBody bengaliKeyboard (order 0) w 0 hlen []).2 (by omega)
  refine ⟨(loopBody bengaliKeyboard (order 0) w 0 hlen []).2 ++ added, ?_, ?_⟩
  · unfold ConvertText
    simp only
    rw [hn, convertLoop_step bengaliKeyboard order w n 0 [] hlen]
    exact hadd
  · intro hnil
    exact loopBody_first_ne_nil order ho w hlen (List.append_eq_nil.1 hnil).1

/-- C20: converted words are never empty. For every non-empty input `w`, `ConvertText(w)` is
non-empty, and `ConvertText("") = ""`. Hence the test `len(bengaliWord) > 0` of
`processCharacter` never decides: on a boundary character with a non-empty buffer the
replacement is injected and the key suppressed exactly when `ConvertText(buffer)` differs from
the buffer. -/
theorem converted_words_nonempty (order : Nat → GoMap BengaliChar)
    (ho : Enumerates bengaliKeyboard order) (w : GoString) (hw : w ≠ [])
    (st : KeyboardState) (c : Char) (hb : st.inputBuffer ≠ [])
    (hc : c = ' ' ∨ c = '\n' ∨ c = '\t') :
    (∃ out, ConvertText bengaliKeyboard order w = some out ∧ out.length > 0) ∧
      ConvertText bengaliKeyboard order [] = some [] ∧
      ∃ out, ConvertText bengaliKeyboard order st.inputBuffer = some out ∧ out.length > 0 ∧
        (out ≠ st.inputBuffer →
          processCharacter order st c =
            some { state := { enabled := st.enabled, inputBuffer := [],
                              lastBengaliOutput := [] }
                   sent := List.replicate st.inputBuffer.length Sent.sendBackspace ++
                     [Sent.sendUnicodeText out, Sent.sendCharacter c]
                   suppress := true }) ∧
        (out = st.inputBuffer →
          processCharacter order st c =
            some { state := { enabled := st.enabled, inputBuffer := [],
                              lastBengaliOutput := [] }
                   sent := [], suppress := false }) := by
  refine ⟨?_, rfl, ?_⟩
  · obtain ⟨out, hout, hne⟩ := ConvertText_ne_nil order ho w hw
    exact ⟨out, hout, List.length_pos.2 hne⟩
  · obtain ⟨out, hout, hne⟩ := ConvertText_ne_nil order ho st.inputBuffer hb
    have hp := processCharacter_boundary order st c hc out hout
    refine ⟨out, hout, List.length_pos.2 hne, ?_, ?_⟩
    · intro hdiff
      rw [hp, if_pos ⟨hb, hne, hdiff⟩]
    · intro hsame
      rw [hp, if_neg (fun hcond => hcond.2.2 hsame)]

theorem converted_words_nonempty_witness :
    Enumerates bengaliKeyboard (sourceOrder bengaliKeyboard) ∧
      (∃ out, ConvertText bengaliKeyboard (sourceOrder bengaliKeyboard) "ko".toList = some out ∧
        out.length > 0) ∧
      ∃ out, ConvertText bengaliKeyboard (sourceOrder bengaliKeyboard) "qx".toList = some out ∧
        out.length > 0 ∧
        (out = "qx".toList →
          processCharacter (sourceOrder bengaliKeyboard)
              { enabled := true, inputBuffer := "qx".toList, lastBengaliOutput := [] } ' ' =
            some { state := { enabled := true, inputBuffer := [], lastBengaliOutput := [] }
                   sent := [], suppress := false }) :=
  have hw := converted_words_nonempty (sourceOrder bengaliKeyboard)
    (enumerates_sourceOrder _) "ko".toList (by decide)
    { enabled := true, inputBuffer := "qx".toList, lastBengaliOutput := [] } ' '
    (by decide) (Or.inl rfl)
  ⟨enumerates_sourceOrder _, hw.1,
    hw.2.2.elim (fun out h => ⟨out, h.1, h.2.1, h.2.2.2⟩)⟩

/-! ## Disabled implies idle -/

/-- A call of `processCharacter` never changes the `enabled` flag. -/
theorem processCharacter_enabled (order : Nat → GoMap BengaliChar) (st : KeyboardState)
    (ch : Char) (o : Outcome) (hp : processCharacter order st ch = some o) :
    o.state.enabled = st.enabled := by
  by_cases h1 : ch = '\x08'
  · rw [h1, processCharacter_backspace] at hp
    rw [← Option.some.inj hp]
  · by_cases h2 : ch = ' ' ∨ ch = '\n' ∨ ch = '\t'
    · obtain ⟨out, hout⟩ := ConvertText_total bengaliKeyboard order st.inputBuffer
      rw [processCharacter_boundary order st ch h2 out hout] at hp
      split_ifs at hp <;> rw [← Option.some.inj hp]
    · cases h3 : isValidInputChar ch with
      | true =>
        rw [processCharacter_valid order st ch h1 h2 h3] at hp
        rw [← Option.some.inj hp]
      | false =>
        rw [processCharacter_invalid order st ch h1 h2 h3] at hp
        split_ifs at hp <;> rw [← Option.some.inj hp]

/-- One call of `keyboardHookProc` keeps a disabled session idle. -/
theorem keyboardHookProc_keeps_idle (order : Nat → GoMap BengaliChar) (st : KeyboardState)
    (ctrlPressed shiftPressed : Bool) (code : Int) (wparam vkCode : Nat) (o : HookOutcome)
    (hp : keyboardHookProc order st ctrlPressed shiftPressed code wparam vkCode = some o)
    (hst : st.enabled = false → st.inputBuffer = []) :
    o.state.enabled = false → o.state.inputBuffer = [] := by
  unfold keyboardHookProc at hp
  by_cases hcode : code ≥ 0
  · rw [if_pos hcode] at hp
    by_cases hk : wparam = WM_KEYDOWN ∧ vkCode = TOGGLE_KEY
    · rw [if_pos hk] at hp
      rw [← Option.some.inj hp]
      exact fun _ => rfl
    · rw [if_neg hk] at hp
      by_cases hctrl : ctrlPressed = true ∧ wparam = WM_KEYDOWN ∧
          vkCode ∈ [0x43, 0x56, 0x41, 0x58, 0x5A, 0x59]
      · rw [if_pos hctrl] at hp
        rw [← Option.some.inj hp]
        exact hst
      · rw [if_neg hctrl] at hp
        simp only at hp
        by_cases hen : st.enabled = true ∧ wparam = WM_KEYDOWN
        · rw [if_pos hen] at hp
          by_cases hch : vkToChar shiftPressed vkCode ≠ Char.ofNat 0
          · rw [if_pos hch] at hp
            cases hpc : processCharacter order st (vkToChar shiftPressed vkCode) with
            | none => rw [hpc] at hp; exact absurd hp (by simp)
            | some po =>
              rw [hpc] at hp
              have hpe := processCharacter_enabled order st _ po hpc
              have hos : o.state = po.state := by
                simp only at hp
                split_ifs at hp <;> rw [← Option.some.inj hp]
              rw [hos, hpe, hen.1]
              intro hfalse
              exact absurd hfalse (by decide)
          · rw [if_neg hch] at hp
            rw [← Option.some.inj hp]
            exact hst
        · rw [if_neg hen] at hp
          rw [← Option.some.inj hp]
          exact hst
  · rw [if_neg hcode] at hp
    rw [← Option.some.inj hp]
    exact hst

/-- C22: disabled implies idle. In every session state reachable from the state at program
start (`enabled = false`, empty buffer) by a sequence of `toggleKeyboard` calls and of events
handled by `keyboardHookProc`, which hands a character to `processCharacter` only when
`enabled` is true, `enabled = false` implies that the buffer is empty. -/
theorem disabled_implies_idle (st : KeyboardState) (hr : HookReachable st)
    (hdis : st.enabled = false) : st.inputBuffer = [] := by
  induction hr with
  | start => rfl
  | toggle st _ _ => rfl
  | event st order ctrlPressed shiftPressed code wparam vkCode o _ hp ih =>
    exact keyboardHookProc_keeps_idle order st ctrlPressed shiftPressed code wparam vkCode o
      hp ih hdis

theorem disabled_implies_idle_witness :
    HookReachable { enabled := false, inputBuffer := [], lastBengaliOutput := [] } ∧
      HookReachable { enabled := true, inputBuffer := ['k'], lastBengaliOutput := [] } ∧
      (toggleKeyboard { enabled := true, inputBuffer := ['k'], lastBengaliOutput := [] }).inputBuffer
        = [] :=
  have h0 : HookReachable (toggleKeyboard keyboardState) :=
    HookReachable.toggle _ HookReachable.start
  have hk : keyboardHookProc (sourceOrder bengaliKeyboard) (toggleKeyboard keyboardState)
      false false 0 WM_KEYDOWN 0x4B =
      some ⟨{ enabled := true, inputBuffer := ['k'], lastBengaliOutput := [] }, [],
        HookResult.callNextHookEx⟩ := by decide
  have h1 : HookReachable { enabled := true, inputBuffer := ['k'], lastBengaliOutput := [] } :=
    HookReachable.event _ (sourceOrder bengaliKeyboard) false false 0 WM_KEYDOWN 0x4B _ h0 hk
  have h2 : HookReachable
      (toggleKeyboard { enabled := true, inputBuffer := ['k'], lastBengaliOutput := [] }) :=
    HookReachable.toggle _ h1
  ⟨h2, h1, disabled_implies_idle _ h2 rfl⟩

/-! ## The key-code map -/

theorem vkToChar_letter (shiftPressed : Bool) (vkCode : Nat)
    (h : vkCode ≥ 0x41 ∧ vkCode ≤ 0x5A) :
    isValidInputChar (vkToChar shiftPressed vkCode) = true := by
  unfold vkToChar
  rw [if_pos h]
  obtain ⟨h1, h2⟩ := h
  cases shiftPressed <;> (interval_cases vkCode <;> decide)

theorem vkToChar_digit (shiftPressed : Bool) (vkCode : Nat)
    (h : vkCode ≥ 0x30 ∧ vkCode ≤ 0x39) :
    isValidInputChar (vkToChar shiftPressed vkCode) = true := by
  unfold vkToChar
  rw [if_neg (by omega), if_pos h]
  obtain ⟨h1, h2⟩ := h
  interval_cases vkCode <;> decide

/-- What `vkToChar` returns is the rune 0, backspace, a boundary character, or a character
accepted by `isValidInputChar`. -/
theorem vkToChar_classes (shiftPressed : Bool) (vkCode : Nat) :
    vkToChar shiftPressed vkCode = Char.ofNat 0 ∨
      vkToChar shiftPressed vkCode = '\x08' ∨
      (vkToChar shiftPressed vkCode = ' ' ∨ vkToChar shiftPressed vkCode = '\n' ∨
        vkToChar shiftPressed vkCode = '\t') ∨
      isValidInputChar (vkToChar shiftPressed vkCode) = true := by
  by_cases hl : vkCode ≥ 0x41 ∧ vkCode ≤ 0x5A
  · exact Or.inr (Or.inr (Or.inr (vkToChar_letter shiftPressed vkCode hl)))
  · by_cases hd : vkCode ≥ 0x30 ∧ vkCode ≤ 0x39
    · exact Or.inr (Or.inr (Or.inr (vkToChar_digit shiftPressed vkCode hd)))
    · unfold vkToChar
      rw [if_neg hl, if_neg hd]
      split_ifs
      · exact Or.inr (Or.inl rfl)
      · exact Or.inr (Or.inr (Or.inl (Or.inl rfl)))
      · exact Or.inr (Or.inr (Or.inl (Or.inr (Or.inl rfl))))
      · exact Or.inr (Or.inr (Or.inl (Or.inr (Or.inr rfl))))
      · exact Or.inr (Or.inr (Or.inr (by decide)))
      · exact Or.inr (Or.inr (Or.inr (by decide)))
      · exact Or.inr (Or.inr (Or.inr (by decide)))
      · exact Or.inl rfl

/-- C23: the key-code map only produces characters the session classifies as backspace,
boundary or valid. For every virtual-key code and every shift state `vkToChar` returns the
rune 0, or backspace, or one of space, newline and tab, or a character accepted by
`isValidInputChar`. On the rune 0 `keyboardHookProc` does not call `processCharacter` (an
event that is neither the toggle key nor a control shortcut leaves the state as it is and is
passed on); on any other result the condition of the last branch of `processCharacter`, the
one that clears the buffer on an invalid character, is false. -/
theorem vkToChar_never_invalid (order : Nat → GoMap BengaliChar) (st : KeyboardState)
    (ctrlPressed shiftPressed : Bool) (code : Int) (wparam vkCode : Nat) :
    (vkToChar shiftPressed vkCode = Char.ofNat 0 ∨
        vkToChar shiftPressed vkCode = '\x08' ∨
        (vkToChar shiftPressed vkCode = ' ' ∨ vkToChar shiftPressed vkCode = '\n' ∨
          vkToChar shiftPressed vkCode = '\t') ∨
        isValidInputChar (vkToChar shiftPressed vkCode) = true) ∧
      (vkToChar shiftPressed vkCode ≠ Char.ofNat 0 →
        ¬ (vkToChar shiftPressed vkCode ≠ '\x08' ∧
          ¬ (vkToChar shiftPressed vkCode = ' ' ∨ vkToChar shiftPressed vkCode = '\n' ∨
            vkToChar shiftPressed vkCode = '\t') ∧
          isValidInputChar (vkToChar shiftPressed vkCode) = false)) ∧
      (vkToChar shiftPressed vkCode = Char.ofNat 0 →
        ¬ (wparam = WM_KEYDOWN ∧ vkCode = TOGGLE_KEY) →
        keyboardHookProc order st ctrlPressed shiftPressed code wparam vkCode =
          some { state := st, sent := [], result := HookResult.callNextHookEx }) := by
  refine ⟨vkToChar_classes shiftPressed vkCode, ?_, ?_⟩
  · intro hne hbad
    rcases vkToChar_classes shiftPressed vkCode with h | h | h | h
    · exact hne h
    · exact hbad.1 h
    · exact hbad.2.1 h
    · rw [hbad.2.2] at h
      exact absurd h (by decide)
  · intro h0 hk
    unfold keyboardHookProc
    by_cases hcode : code ≥ 0
    · rw [if_pos hcode, if_neg hk]
      by_cases hctrl : ctrlPressed = true ∧ wparam = WM_KEYDOWN ∧
          vkCode ∈ [0x43, 0x56, 0x41, 0x58, 0x5A, 0x59]
      · rw [if_pos hctrl]
      · rw [if_neg hctrl]
        simp only [h0, ne_eq, not_true_eq_false, if_false, ite_self]
    · rw [if_neg hcode]

theorem vkToChar_never_invalid_witness :
    vkToChar true 0x4B = 'K' ∧ vkToChar false 0x4B = 'k' ∧ vkToChar true 0x34 = '4' ∧
      vkToChar false 0xBA = ':' ∧ vkToChar false 0x70 = Char.ofNat 0 ∧
      ¬ ('K' ≠ '\x08' ∧ ¬ ('K' = ' ' ∨ 'K' = '\n' ∨ 'K' = '\t') ∧
        isValidInputChar 'K' = false) ∧
      keyboardHookProc (sourceOrder bengaliKeyboard)
          { enabled := true, inputBuffer := ['k'], lastBengaliOutput := [] }
          false false 0 WM_KEYDOWN 0x70 =
        some { state := { enabled := true, inputBuffer := ['k'], lastBengaliOutput := [] }
               sent := [], result := HookResult.callNextHookEx } :=
  have hK : vkToChar true 0x4B = 'K' := by decide
  have h0 : vkToChar false 0x70 = Char.ofNat 0 := by decide
  have hw := vkToChar_never_invalid (sourceOrder bengaliKeyboard)
    { enabled := true, inputBuffer := ['k'], lastBengaliOutput := [] }
    false true 0 WM_KEYDOWN 0x4B
  have hw0 := vkToChar_never_invalid (sourceOrder bengaliKeyboard)
    { enabled := true, inputBuffer := ['k'], lastBengaliOutput := [] }
    false false 0 WM_KEYDOWN 0x70
  ⟨hK, by decide, by decide, by decide, h0,
    by
      have h1 := hw.2.1 (by rw [hK]; decide)
      rw [hK] at h1
      exact h1,
    hw0.2.2 h0 (by decide)⟩

/-! ## The two tables agree -/

theorem Patterns_vowels_have_diacritic :
    ∀ e ∈ bengaliKeyboard.keymap.Patterns, e.2.IsVowel = true →
      (bengaliKeyboard.keymap.VowelDiacritics.get? e.1).isSome = true := by
  rw [Patterns_eq, VowelDiacritics_eq]
  decide!

theorem VowelDiacritics_keys_are_vowels :
    ∀ p ∈ bengaliKeyboard.keymap.VowelDiacritics,
      ∀ b ∈ bengaliKeyboard.keymap.Patterns.get? p.1, b.IsVowel = true := by
  rw [Patterns_eq, VowelDiacritics_eq]
  decide!

theorem VowelDiacritics_keys_are_patterns :
    ∀ p ∈ bengaliKeyboard.keymap.VowelDiacritics,
      (bengaliKeyboard.keymap.Patterns.get? p.1).isSome = true := by
  rw [Patterns_eq, VowelDiacritics_eq]
  decide!

theorem VowelDiacritics_empty_only_o :
    ∀ p ∈ bengaliKeyboard.keymap.VowelDiacritics, (p.2 = [] ↔ p.1 = ['o']) := by
  rw [VowelDiacritics_eq]
  decide!

theorem VowelDiacritics_get?_o :
    bengaliKeyboard.keymap.VowelDiacritics.get? ['o'] = some [] := by
  rw [VowelDiacritics_eq]
  decide!

/-- C24: the two tables agree. A key has an entry in `VowelDiacritics` exactly when it is a
pattern with `IsVowel = true`, and `o` is the only key whose diacritic is empty. Hence, when
the inner search of `ConvertText` ends with a vowel pattern, the lookup
`VowelDiacritics[longestMatch]` finds an entry: the branch that writes the independent vowel
after a consonant for want of a diacritic is never taken. -/
theorem tables_agree (order : Nat → GoMap BengaliChar)
    (ho : Enumerates bengaliKeyboard order) (k : GoString) (chars : List Char) (i : Nat)
    (hpos : 0 < (findLongest (order i) chars i).longestLen)
    (hv : (findLongest (order i) chars i).isVowel = true) :
    ((∃ d, bengaliKeyboard.keymap.VowelDiacritics.get? k = some d) ↔
        ∃ b, bengaliKeyboard.keymap.Patterns.get? k = some b ∧ b.IsVowel = true) ∧
      (bengaliKeyboard.keymap.VowelDiacritics.get? k = some [] ↔ k = "o".toList) ∧
      ∃ d, bengaliKeyboard.keymap.VowelDiacritics.get?
        (findLongest (order i) chars i).longestMatch = some d := by
  refine ⟨⟨?_, ?_⟩, ⟨?_, ?_⟩, ?_⟩
  · rintro ⟨d, hd⟩
    have hm := GoMap.mem_of_get? _ _ _ hd
    have hs := VowelDiacritics_keys_are_patterns (k, d) hm
    obtain ⟨b, hb⟩ := Option.isSome_iff_exists.1 hs
    exact ⟨b, hb, VowelDiacritics_keys_are_vowels (k, d) hm b hb⟩
  · rintro ⟨b, hb, hvow⟩
    have hm := GoMap.mem_of_get? _ _ _ hb
    exact Option.isSome_iff_exists.1 (Patterns_vowels_have_diacritic (k, b) hm hvow)
  · intro hd
    exact (VowelDiacritics_empty_only_o (k, []) (GoMap.mem_of_get? _ _ _ hd)).1 rfl
  · intro hk
    rw [hk]
    exact VowelDiacritics_get?_o
  · obtain ⟨e, he, _, hfl, _⟩ := findLongest_selected order ho chars i hpos
    rw [hfl] at hv ⊢
    exact Option.isSome_iff_exists.1 (Patterns_vowels_have_diacritic e he hv)

theorem tables_agree_witness :
    Enumerates bengaliKeyboard (sourceOrder bengaliKeyboard) ∧
      findLongest (sourceOrder bengaliKeyboard 1) "krri".toList 1
        = ⟨['r', 'r', 'i'], ['ঋ'], 3, true⟩ ∧
      ∃ d, bengaliKeyboard.keymap.VowelDiacritics.get? ['r', 'r', 'i'] = some d :=
  have hfl : findLongest (sourceOrder bengaliKeyboard 1) "krri".toList 1 =
      ⟨['r', 'r', 'i'], ['ঋ'], 3, true⟩ := by
    show findLongest bengaliKeyboard.keymap.Patterns "krri".toList 1 = _
    rw [Patterns_eq]
    decide!
  have hw := (tables_agree (sourceOrder bengaliKeyboard) (enumerates_sourceOrder _)
    "rri".toList "krri".toList 1 (by rw [hfl]; decide) (by rw [hfl])).2.2
  ⟨enumerates_sourceOrder _, hfl, by rw [hfl] at hw; exact hw⟩

/-! ## Which words are replaced -/

theorem isBengaliConsonant_non_ascii (c : Char) (h : isBengaliConsonant c = true) :
    128 ≤ c.toNat := by
  unfold isBengaliConsonant at h
  rw [decide_eq_true_eq] at h
  rcases h with h | h | h | h | h
  · have h1 := (Char_le_iff _ _).1 h.1
    have : 'ক'.toNat = 0x995 := rfl
    omega
  all_goals (rw [h]; decide)

/-- A text made of characters accepted by `isValidInputChar` does not end in a consonant. -/
theorem endsWithConsonant_of_valid (text : GoString)
    (hvalid : ∀ c ∈ text, isValidInputChar c = true) : endsWithConsonant text = false := by
  cases hl : text.getLast? with
  | none =>
    rw [List.getLast?_eq_none_iff.1 hl]
    rfl
  | some c =>
    rw [endsWithConsonant_of_getLast? text c hl]
    cases hc : isBengaliConsonant c with
    | false => rfl
    | true =>
      have h1 := isBengaliConsonant_non_ascii c hc
      have h2 := isValidInputChar_ascii c (hvalid c (List.mem_of_mem_getLast? hl))
      omega

/-- The first character of every pattern of two or more characters is itself a pattern. -/
theorem Patterns_single :
    ∀ e ∈ bengaliKeyboard.keymap.Patterns, 1 < e.1.length →
      (bengaliKeyboard.keymap.Patterns.get? (e.1.take 1)).isSome = true := by
  rw [Patterns_eq]
  decide!

/-- No script of the table starts with a character accepted by `isValidInputChar`. -/
theorem Patterns_Bengali_head_invalid :
    ∀ e ∈ bengaliKeyboard.keymap.Patterns, ∀ c ∈ e.2.Bengali.head?,
      isValidInputChar c = false := by
  rw [Patterns_eq]
  decide!

/-- Among the characters accepted by `isValidInputChar`, those that start no pattern of the
table are the nineteen listed. -/
theorem valid_chars_starting_no_pattern :
    ∀ n ∈ List.range 128, isValidInputChar (Char.ofNat n) = true →
      ((∀ e ∈ bengaliKeyboard.keymap.Patterns, e.1.head? ≠ some (Char.ofNat n)) ↔
        Char.ofNat n ∈ ['q', 'w', 'x', 'A', 'B', 'E', 'F', 'G', 'J', 'K', 'L', 'M', 'P', 'Q',
          'V', 'W', 'X', 'Z', '_']) := by
  rw [Patterns_eq]
  decide!

/-- A character starts a pattern of the table exactly when it is a pattern. -/
theorem starts_pattern_iff (x : Char) :
    (∃ e ∈ bengaliKeyboard.keymap.Patterns, e.1.head? = some x) ↔
      ∃ b, bengaliKeyboard.keymap.Patterns.get? [x] = some b := by
  constructor
  · rintro ⟨e, he, hh⟩
    obtain ⟨ys, hys⟩ := List.head?_eq_some_iff.1 hh
    cases ys with
    | nil =>
      refine ⟨e.2, GoMap.get?_of_mem _ nodup_keys_Patterns [x] e.2 ?_⟩
      rw [← hys]
      exact he
    | cons y rest =>
      have hs := Patterns_single e he (by rw [hys]; simp)
      rw [hys] at hs
      exact Option.isSome_iff_exists.1 hs
  · rintro ⟨b, hb⟩
    exact ⟨([x], b), GoMap.mem_of_get? _ _ _ hb, rfl⟩

/-- From a position before a character that starts a pattern, with the input copied so far,
the loop does not end with the input itself. -/
theorem convertLoop_changes (order : Nat → GoMap BengaliChar)
    (ho : Enumerates bengaliKeyboard order) (w : GoString)
    (hvalid : ∀ c ∈ w, isValidInputChar c = true) :
    ∀ (fuel i : Nat), w.length ≤ i + fuel →
      (∃ c ∈ w.drop i, ∃ e ∈ bengaliKeyboard.keymap.Patterns, e.1.head? = some c) →
      convertLoop bengaliKeyboard order w fuel i (w.take i) ≠ some w := by
  intro fuel
  induction fuel with
  | zero =>
    intro i hfuel hex
    obtain ⟨c, hc, _⟩ := hex
    rw [List.drop_of_length_le (by omega)] at hc
    exact absurd hc (List.not_mem_nil c)
  | succ n ih =>
    intro i hfuel hex
    by_cases h : i < w.length
    · rw [convertLoop_step _ _ _ _ _ _ h]
      by_cases hstart : ∃ e ∈ bengaliKeyboard.keymap.Patterns, e.1.head? = some (w.get ⟨i, h⟩)
      · obtain ⟨b1, hb1⟩ := (starts_pattern_iff _).1 hstart
        have hm1 : matchesAt w i [w.get ⟨i, h⟩] := by
          refine ⟨h, ?_⟩
          rw [List.drop_eq_getElem_cons h]
          rfl
        have hpos : 0 < (findLongest (order i) w i).longestLen := by
          rw [findLongest_enumerates order ho]
          rcases findLongest_spec bengaliKeyboard.keymap.Patterns w i with
            ⟨_, hall⟩ | ⟨e, _, _, hp, hr, _⟩
          · exact absurd (hall _ (GoMap.mem_of_get? _ _ _ hb1) hm1) (Nat.succ_ne_zero 0)
          · rw [hr]; exact hp
        obtain ⟨e, he, _, hfl, _⟩ := findLongest_selected order ho w i hpos
        have hlen : 0 < e.1.length := by rw [hfl] at hpos; exact hpos
        have hbody : loopBody bengaliKeyboard (order i) w i h (w.take i) =
            (i + e.1.length, w.take i ++ e.2.Bengali) := by
          cases hv : e.2.IsVowel with
          | true =>
            rw [loopBody_of_vowel_independent _ _ _ _ _ _ hpos (by rw [hfl]; exact hv)
              (by
                rintro ⟨_, hcons⟩
                rw [endsWithConsonant_of_valid _
                  (fun c hc => hvalid c (List.mem_of_mem_take hc))] at hcons
                exact absurd hcons (by decide)), hfl]
            rfl
          | false =>
            rw [loopBody_of_consonant _ _ _ _ _ _ hpos (by rw [hfl]; exact hv), hfl]
            rfl
        rw [hbody]
        obtain ⟨added, hadd⟩ := convertLoop_total bengaliKeyboard order w n (i + e.1.length)
          (w.take i ++ e.2.Bengali) (by omega)
        rw [hadd]
        intro heq
        have hw : w.take i ++ w.drop i = w.take i ++ (e.2.Bengali ++ added) := by
          rw [List.take_append_drop, ← List.append_assoc]
          exact (Option.some.inj heq).symm
        have hdrop := List.append_cancel_left hw
        rw [List.drop_eq_getElem_cons h] at hdrop
        cases hB : e.2.Bengali with
        | nil => exact Patterns_Bengali_ne_nil e he hB
        | cons b0 rest =>
          rw [hB] at hdrop
          have hhead : w[i] = b0 := (List.cons.inj hdrop).1
          have hinv := Patterns_Bengali_head_invalid e he b0 (by rw [hB]; rfl)
          have hval := hvalid _ (List.getElem_mem h)
          rw [hhead, hinv] at hval
          exact absurd hval (by decide)
      · have hno : ∀ e ∈ bengaliKeyboard.keymap.Patterns, e.1.head? ≠ some (w.get ⟨i, h⟩) :=
          fun e he hh => hstart ⟨e, he, hh⟩
        rw [loopBody_of_none _ _ _ _ h _
          (findLongest_no_match order ho w i (not_matchesAt_of_head w i h hno))]
        have htake : w.take i ++ [w.get ⟨i, h⟩] = w.take (i + 1) := by
          rw [← List.take_concat_get w i h, List.concat_eq_append]
          rfl
        show convertLoop bengaliKeyboard order w n (i + 1) (w.take i ++ [w.get ⟨i, h⟩]) ≠ _
        rw [htake]
        apply ih (i + 1) (by omega)
        obtain ⟨c, hc, e, he, hh⟩ := hex
        rw [List.drop_eq_getElem_cons h] at hc
        rcases List.mem_cons.1 hc with hci | hci
        · exfalso
          apply hno e he
          rw [hh, hci]
          rfl
        · exact ⟨c, hci, e, he, hh⟩
    · obtain ⟨c, hc, _⟩ := hex
      rw [List.drop_of_length_le (by omega)] at hc
      exact absurd hc (List.not_mem_nil c)

/-- A word of valid characters is returned unchanged exactly when none of its characters
starts a pattern of the table. -/
theorem ConvertText_eq_self_iff (order : Nat → GoMap BengaliChar)
    (ho : Enumerates bengaliKeyboard order) (w : GoString)
    (hvalid : ∀ c ∈ w, isValidInputChar c = true) :
    ConvertText bengaliKeyboard order w = some w ↔
      ∀ x ∈ w, ∀ e ∈ bengaliKeyboard.keymap.Patterns, e.1.head? ≠ some x := by
  constructor
  · intro heq x hx e he hh
    exact convertLoop_changes order ho w hvalid w.length 0 (by omega)
      ⟨x, hx, e, he, hh⟩ heq
  · intro hno
    exact convertLoop_passthrough order ho w hno w.length 0 (Nat.zero_le _) (by omega)

theorem starts_no_pattern_iff_listed (x : Char) (hx : isValidInputChar x = true) :
    (∀ e ∈ bengaliKeyboard.keymap.Patterns, e.1.head? ≠ some x) ↔
      x ∈ ['q', 'w', 'x', 'A', 'B', 'E', 'F', 'G', 'J', 'K', 'L', 'M', 'P', 'Q', 'V', 'W',
        'X', 'Z', '_'] := by
  have h := valid_chars_starting_no_pattern x.toNat
    (List.mem_range.2 (isValidInputChar_ascii x hx))
  rw [Char.ofNat_toNat] at h
  exact h hx

theorem starts_no_pattern_iff_get? (x : Char) :
    (∀ e ∈ bengaliKeyboard.keymap.Patterns, e.1.head? ≠ some x) ↔
      bengaliKeyboard.keymap.Patterns.get? [x] = none := by
  constructor
  · intro hno
    cases hg : bengaliKeyboard.keymap.Patterns.get? [x] with
    | none => rfl
    | some b => exact absurd rfl (hno ([x], b) (GoMap.mem_of_get? _ _ _ hg))
  · intro hnone e he hh
    obtain ⟨b, hb⟩ := (starts_pattern_iff x).1 ⟨e, he, hh⟩
    rw [hnone] at hb
    exact absurd hb (by simp)

/-- C21: exactly which words are replaced. For every word `w` made only of characters accepted
by `isValidInputChar`, `ConvertText(w) = w` if and only if no character of `w` is the first
character of a pattern of the table, that is if and only if `w` uses only `q`, `w`, `x`, `A`,
`B`, `E`, `F`, `G`, `J`, `K`, `L`, `M`, `P`, `Q`, `V`, `W`, `X`, `Z` and `_`, that is if and
only if no character of `w` is itself a pattern. So, on a boundary character, a non-empty
buffer of valid characters is replaced (the key suppressed, backspaces, the converted text and
the boundary character sent) exactly when it contains a character that has a
single-character pattern; otherwise the key is passed through and nothing is sent. -/
theorem replaced_words (order : Nat → GoMap BengaliChar)
    (ho : Enumerates bengaliKeyboard order) (w : GoString)
    (hvalid : ∀ x ∈ w, isValidInputChar x = true) (st : KeyboardState) (c : Char)
    (hbvalid : ∀ x ∈ st.inputBuffer, isValidInputChar x = true)
    (hb : st.inputBuffer ≠ []) (hc : c = ' ' ∨ c = '\n' ∨ c = '\t') :
    (ConvertText bengaliKeyboard order w = some w ↔
        ∀ x ∈ w, ∀ e ∈ bengaliKeyboard.keymap.Patterns, e.1.head? ≠ some x) ∧
      (ConvertText bengaliKeyboard order w = some w ↔
        ∀ x ∈ w, x ∈ ['q', 'w', 'x', 'A', 'B', 'E', 'F', 'G', 'J', 'K', 'L', 'M', 'P', 'Q',
          'V', 'W', 'X', 'Z', '_']) ∧
      (ConvertText bengaliKeyboard order w = some w ↔
        ∀ x ∈ w, bengaliKeyboard.keymap.Patterns.get? [x] = none) ∧
      ((∃ x ∈ st.inputBuffer, ∃ b, bengaliKeyboard.keymap.Patterns.get? [x] = some b) →
        ∃ out, ConvertText bengaliKeyboard order st.inputBuffer = some out ∧
          out ≠ st.inputBuffer ∧
          processCharacter order st c =
            some { state := { enabled := st.enabled, inputBuffer := [],
                              lastBengaliOutput := [] }
                   sent := List.replicate st.inputBuffer.length Sent.sendBackspace ++
                     [Sent.sendUnicodeText out, Sent.sendCharacter c]
                   suppress := true }) ∧
      ((¬ ∃ x ∈ st.inputBuffer, ∃ b, bengaliKeyboard.keymap.Patterns.get? [x] = some b) →
        processCharacter order st c =
          some { state := { enabled := st.enabled, inputBuffer := [],
                            lastBengaliOutput := [] }
                 sent := [], suppress := false }) := by
  have hmain := ConvertText_eq_self_iff order ho w hvalid
  refine ⟨hmain, ?_, ?_, ?_, ?_⟩
  · rw [hmain]
    constructor
    · intro h x hx
      exact (starts_no_pattern_iff_listed x (hvalid x hx)).1 (h x hx)
    · intro h x hx
      exact (starts_no_pattern_iff_listed x (hvalid x hx)).2 (h x hx)
  · rw [hmain]
    constructor
    · intro h x hx
      exact (starts_no_pattern_iff_get? x).1 (h x hx)
    · intro h x hx
      exact (starts_no_pattern_iff_get? x).2 (h x hx)
  · rintro ⟨x, hx, b, hxb⟩
    obtain ⟨out, hout, hne⟩ := ConvertText_ne_nil order ho st.inputBuffer hb
    have hdiff : out ≠ st.inputBuffer := by
      intro heq
      rw [heq] at hout
      have hno := (ConvertText_eq_self_iff order ho st.inputBuffer hbvalid).1 hout x hx
      exact hno ([x], b) (GoMap.mem_of_get? _ _ _ hxb) rfl
    refine ⟨out, hout, hdiff, ?_⟩
    rw [processCharacter_boundary order st c hc out hout, if_pos ⟨hb, hne, hdiff⟩]
  · intro hnone
    have hself : ConvertText bengaliKeyboard order st.inputBuffer = some st.inputBuffer := by
      apply (ConvertText_eq_self_iff order ho st.inputBuffer hbvalid).2
      intro x hx e he hh
      exact hnone ⟨x, hx, (starts_pattern_iff x).1 ⟨e, he, hh⟩⟩
    rw [processCharacter_boundary order st c hc _ hself, if_neg (fun hcond => hcond.2.2 rfl)]

theorem replaced_words_witness :
    Enumerates bengaliKeyboard (sourceOrder bengaliKeyboard) ∧
      ConvertText bengaliKeyboard (sourceOrder bengaliKeyboard) "qXk".toList
        ≠ some "qXk".toList ∧
      ConvertText bengaliKeyboard (sourceOrder bengaliKeyboard) "qX_".toList
        = some "qX_".toList ∧
      processCharacter (sourceOrder bengaliKeyboard)
          { enabled := true, inputBuffer := "qX_".toList, lastBengaliOutput := [] } ' ' =
        some { state := { enabled := true, inputBuffer := [], lastBengaliOutput := [] }
               sent := [], suppress := false } ∧
      ∃ out, ConvertText bengaliKeyboard (sourceOrder bengaliKeyboard) "qXk".toList
          = some out ∧
        processCharacter (sourceOrder bengaliKeyboard)
            { enabled := true, inputBuffer := "qXk".toList, lastBengaliOutput := [] } ' ' =
          some { state := { enabled := true, inputBuffer := [], lastBengaliOutput := [] }
                 sent := [Sent.sendBackspace, Sent.sendBackspace, Sent.sendBackspace,
                   Sent.sendUnicodeText out, Sent.sendCharacter ' ']
                 suppress := true } :=
  have hk : bengaliKeyboard.keymap.Patterns.get? ['k'] = some ⟨['ক'], false⟩ := by
    rw [Patterns_eq]; decide!
  have hw1 := replaced_words (sourceOrder bengaliKeyboard) (enumerates_sourceOrder _)
    "qXk".toList (by decide)
    { enabled := true, inputBuffer := "qXk".toList, lastBengaliOutput := [] } ' '
    (by decide) (by decide) (Or.inl rfl)
  have hw2 := replaced_words (sourceOrder bengaliKeyboard) (enumerates_sourceOrder _)
    "qX_".toList (by decide)
    { enabled := true, inputBuffer := "qX_".toList, lastBengaliOutput := [] } ' '
    (by decide) (by decide) (Or.inl rfl)
  have hnone : ¬ ∃ x ∈ "qX_".toList, ∃ b,
      bengaliKeyboard.keymap.Patterns.get? [x] = some b := by
    rintro ⟨x, hx, b, hxb⟩
    have hl := hw2.2.1.1 (hw2.2.1.2 (by decide)) x hx
    have hv : ∀ y ∈ "qX_".toList, isValidInputChar y = true := by decide
    have hno := (starts_no_pattern_iff_listed x (hv x hx)).2 hl
    exact hno ([x], b) (GoMap.mem_of_get? _ _ _ hxb) rfl
  ⟨enumerates_sourceOrder _,
    fun heq => absurd (hw1.2.1.1 heq 'k' (by decide)) (by decide),
    hw2.2.1.2 (by decide), hw2.2.2.2.2 hnone,
    (hw1.2.2.2.1 ⟨'k', by decide, _, hk⟩).elim (fun out h => ⟨out, h.1, h.2.2⟩)⟩

end Avgo
